import Mathlib

/-!
Verification of the sitemap crawler (src/sitemapCrawler.py) against its
natural-language specification.

Modelling conventions of this shallow embedding:

* Python strings are modelled as lists of characters (`Str := List Char`);
  `str` coerces a Lean string literal to this representation.
* The pieces of `urllib.parse` used by the program (`urlparse`, `urlunparse`)
  are embedded from the CPython 3.11 algorithm (input sanitization, scheme
  split with scheme-character validation, netloc split after a double slash,
  fragment split at the first hash, query split at the first question mark,
  parameter split in the last path segment; on reassembly the double slash is
  re-added only for a nonempty netloc or a scheme in uses_netloc).  The IPv6
  bracket check and the internationalized-netloc check of urlsplit, which can
  raise ValueError on malformed netlocs, are outside the model.
  `str.lower()` is modelled as ASCII case folding and `str.strip()` strips
  the ASCII whitespace characters; all constants the program compares
  against are ASCII, so the claims are insensitive to this.
* The HTML parser (BeautifulSoup) is a black box: a fetched page is a record
  `Html` carrying exactly what the program reads from the soup — the stripped
  text of the first title element, the content attributes of the two
  description meta tags, and the href attributes of the anchors in document
  order.
* The network and the PDF library are black boxes as well: the crawler takes
  an environment of oracles (`Env`), and the transport-level functions
  `fetch_html` / `get_pdf_title` take the observed response as an argument.
  A call of `fetch_html` or `get_pdf_title` made by the crawler is logged in
  an event trace so that statements about what is (never) fetched are
  expressible.
* Python `set` objects are modelled as duplicate-free lists in first-insertion
  order; iteration order over a set is not semantically meaningful in the
  source and none of the proved statements depends on it.
* Depths (Python floats `1.0`, `depth + 1`, `depth + 0.5`) are modelled as
  rationals; all values produced are multiples of one half, on which float
  arithmetic is exact.
-/

abbrev Str := List Char

def str (s : String) : Str := s.data

/-- ASCII model of the Python method lower. -/
def lowerStr (s : Str) : Str := s.map Char.toLower

/-- Model of the Python method strip: remove whitespace at both ends. -/
def pyStrip (s : Str) : Str :=
  ((s.dropWhile Char.isWhitespace).reverse.dropWhile Char.isWhitespace).reverse

/-- A C0 control character or the space character; CPython urlsplit strips
these from the front of the url. -/
def isC0OrSpace (c : Char) : Bool := c.toNat ≤ 32

/-- A byte CPython urlsplit removes from the url wherever it occurs. -/
def isUnsafeUrlByte (c : Char) : Bool := c = '\t' || c = '\r' || c = '\n'

/-- The sanitization CPython urlsplit applies before parsing: strip leading
C0 controls and spaces, then remove every tab, carriage return and newline. -/
def sanitizeUrl (s : Str) : Str :=
  (s.dropWhile isC0OrSpace).filter (fun c => ¬ isUnsafeUrlByte c)

/-- The characters CPython urlsplit allows inside a scheme. -/
def isSchemeChar (c : Char) : Bool :=
  c.isAlpha || c.isDigit || c = '+' || c = '-' || c = '.'

/-- A character that terminates the netloc in CPython urlsplit. -/
def isNetlocEnd (c : Char) : Bool :=
  c = '/' || c = '?' || c = '#'

/-- Result type of urlparse, as in urllib.parse (six components). -/
structure ParseResult where
  scheme : Str
  netloc : Str
  path : Str
  params : Str
  query : Str
  fragment : Str
deriving DecidableEq

/-- CPython urlsplit, step 1: split off the scheme.  The url splits at the
first colon when the text before it is nonempty, starts with an ASCII letter
and consists of scheme characters only; the scheme is lower-cased. -/
def splitScheme (url : Str) : Str × Str :=
  let pre := url.takeWhile (· ≠ ':')
  if pre.length < url.length ∧ pre ≠ [] ∧
      pre.headI.isAlpha ∧ pre.all isSchemeChar then
    (lowerStr pre, (url.dropWhile (· ≠ ':')).tail)
  else ([], url)

/-- CPython urlsplit, step 2: when the url begins with a double slash, the
netloc runs from there to the first slash, question mark or hash (which stays
in the remainder). -/
def splitNetloc (u : Str) : Str × Str :=
  if u.take 2 = ['/', '/'] then
    ((u.drop 2).takeWhile (fun c => ¬ isNetlocEnd c),
     (u.drop 2).dropWhile (fun c => ¬ isNetlocEnd c))
  else ([], u)

/-- Split a string at the first occurrence of a character; the second
component is what follows that character (empty when it does not occur). -/
def splitOnFirst (c : Char) (s : Str) : Str × Str :=
  (s.takeWhile (· ≠ c), (s.dropWhile (· ≠ c)).tail)

/-- The segment of a path after its last slash (the whole path when it has
no slash). -/
def lastSeg (path : Str) : Str :=
  (path.reverse.takeWhile (· ≠ '/')).reverse

/-- CPython urlparse helper: split parameters (a semicolon part) off the last
path segment. -/
def splitparams (path : Str) : Str × Str :=
  if path.contains '/' then
    let l := lastSeg path
    if l.contains ';' then
      (path.take (path.length - l.length) ++ l.takeWhile (· ≠ ';'),
       (l.dropWhile (· ≠ ';')).tail)
    else (path, [])
  else splitOnFirst ';' path

/-- The schemes of urllib.parse.uses_params. -/
def usesParams : List Str :=
  ["", "ftp", "hdl", "prospero", "http", "imap", "https", "shttp", "rtsp",
   "rtsps", "rtspu", "sip", "sips", "mms", "sftp", "tel"].map str

/-- Model of urllib.parse.urlparse (CPython 3.11): parameters are split off
the path only for a scheme that uses them. -/
def urlparse (url : Str) : ParseResult :=
  let s1 := splitScheme (sanitizeUrl url)
  let s2 := splitNetloc s1.2
  let s3 := splitOnFirst '#' s2.2
  let s4 := splitOnFirst '?' s3.1
  let s5 := if s1.1 ∈ usesParams ∧ s4.1.contains ';' then splitparams s4.1
    else (s4.1, [])
  ⟨s1.1, s2.1, s5.1, s5.2, s4.2, s3.2⟩

/-- The schemes of urllib.parse.uses_netloc. -/
def usesNetloc : List Str :=
  ["", "ftp", "http", "gopher", "nntp", "telnet", "imap", "wais", "file",
   "mms", "https", "shttp", "snews", "prospero", "rtsp", "rtsps", "rtspu",
   "rsync", "svn", "svn+ssh", "sftp", "nfs", "git", "git+ssh", "ws",
   "wss"].map str

/-- Model of urllib.parse.urlunsplit (CPython 3.11): the double slash is
re-added when the netloc is nonempty, or when the scheme is one that uses a
netloc and the url does not already begin with a double slash. -/
def urlunsplit (scheme netloc url query fragment : Str) : Str :=
  let u1 := if netloc ≠ [] ∨
      (scheme ≠ [] ∧ scheme ∈ usesNetloc ∧ url.take 2 ≠ ['/', '/']) then
      '/' :: '/' :: netloc ++
        (if url ≠ [] ∧ url.headI ≠ '/' then '/' :: url else url)
    else url
  let u2 := if scheme ≠ [] then scheme ++ ':' :: u1 else u1
  let u3 := if query ≠ [] then u2 ++ '?' :: query else u2
  if fragment ≠ [] then u3 ++ '#' :: fragment else u3

/-- Model of urllib.parse.urlunparse. -/
def urlunparse (r : ParseResult) : Str :=
  urlunsplit r.scheme r.netloc
    (if r.params ≠ [] then r.path ++ ';' :: r.params else r.path)
    r.query r.fragment

def INDEX_HTML : Str := str "/index.html"

def INDEX_HTM : Str := str "/index.htm"

/-- The path transformation inside canonicalize_url (src/sitemapCrawler.py,
lines 58-67): remove a trailing index document, then force a trailing
slash. -/
def canonicalPath (path : Str) : Str :=
  let path1 :=
    if INDEX_HTML.isSuffixOf path then path.take (path.length - 10)
    else if INDEX_HTM.isSuffixOf path then path.take (path.length - 9)
    else path
  if path1.getLast? = some '/' then path1 else path1 ++ ['/']

/-- Embedding of canonicalize_url (src/sitemapCrawler.py, lines 47-78):
drop query and fragment, remove a trailing index document, force a trailing
slash, reassemble scheme + netloc + path. -/
def canonicalize_url (url : Str) : Str :=
  let p := urlparse url
  urlunparse ⟨p.scheme, p.netloc, canonicalPath p.path, [], [], []⟩

/-! Helper lemmas about characters and lists, used throughout. -/

lemma char_toLower_val (c : Char) (h : 65 ≤ c.toNat ∧ c.toNat ≤ 90) :
    (Char.toLower c).toNat = c.toNat + 32 := by
  unfold Char.toLower
  rw [if_pos h]
  have hv : (c.toNat + 32).isValidChar := Or.inl (by have := h.2; omega)
  simp only [Char.ofNat, dif_pos hv]
  rfl

lemma char_toLower_eq_of_not (c : Char) (h : ¬ (65 ≤ c.toNat ∧ c.toNat ≤ 90)) :
    Char.toLower c = c := by
  unfold Char.toLower
  rw [if_neg h]

lemma char_toLower_idem (c : Char) : (Char.toLower c).toLower = Char.toLower c := by
  by_cases h : 65 ≤ c.toNat ∧ c.toNat ≤ 90
  · have h1 := char_toLower_val c h
    apply char_toLower_eq_of_not
    omega
  · rw [char_toLower_eq_of_not c h]
    exact char_toLower_eq_of_not c h

lemma char_isUpper_iff (c : Char) : c.isUpper = true ↔ 65 ≤ c.toNat ∧ c.toNat ≤ 90 := by
  simp only [Char.isUpper, Bool.and_eq_true, decide_eq_true_eq]
  exact Iff.rfl

lemma char_isLower_iff (c : Char) : c.isLower = true ↔ 97 ≤ c.toNat ∧ c.toNat ≤ 122 := by
  simp only [Char.isLower, Bool.and_eq_true, decide_eq_true_eq]
  exact Iff.rfl

lemma char_isAlpha_toLower (c : Char) (h : c.isAlpha = true) :
    (Char.toLower c).isAlpha = true := by
  simp only [Char.isAlpha, Bool.or_eq_true] at h ⊢
  rcases h with h | h
  · right
    rw [char_isUpper_iff] at h
    rw [char_isLower_iff, char_toLower_val c h]
    omega
  · rw [char_isLower_iff] at h
    rw [char_toLower_eq_of_not c (by omega)]
    right
    rw [char_isLower_iff]
    exact h

lemma char_isAlpha_nat (c : Char) (h : c.isAlpha = true) :
    (65 ≤ c.toNat ∧ c.toNat ≤ 90) ∨ (97 ≤ c.toNat ∧ c.toNat ≤ 122) := by
  simp only [Char.isAlpha, Bool.or_eq_true] at h
  rcases h with h | h
  · exact Or.inl ((char_isUpper_iff c).mp h)
  · exact Or.inr ((char_isLower_iff c).mp h)

lemma char_eq_iff_toNat (c d : Char) : c = d ↔ c.toNat = d.toNat := by
  constructor
  · rintro rfl; rfl
  · intro h
    exact Char.ext (UInt32.ext h)

lemma takeWhile_append_all {p : Char → Bool} {a b : List Char}
    (h : ∀ x ∈ a, p x = true) :
    (a ++ b).takeWhile p = a ++ b.takeWhile p := by
  induction a with
  | nil => simp
  | cons x xs ih =>
      simp only [List.cons_append, List.takeWhile_cons]
      rw [h x (by simp), ih (fun y hy => h y (by simp [hy]))]
      simp

lemma dropWhile_append_all {p : Char → Bool} {a b : List Char}
    (h : ∀ x ∈ a, p x = true) :
    (a ++ b).dropWhile p = b.dropWhile p := by
  induction a with
  | nil => simp
  | cons x xs ih =>
      simp only [List.cons_append, List.dropWhile_cons]
      rw [h x (by simp), ih (fun y hy => h y (by simp [hy]))]
      simp

lemma takeWhile_eq_self_of_all {p : Char → Bool} {a : List Char}
    (h : ∀ x ∈ a, p x = true) : a.takeWhile p = a :=
  List.takeWhile_eq_self_iff.mpr h

lemma dropWhile_eq_nil_of_all {p : Char → Bool} {a : List Char}
    (h : ∀ x ∈ a, p x = true) : a.dropWhile p = [] :=
  List.dropWhile_eq_nil_iff.mpr h

lemma takeWhile_head_false {p : Char → Bool} {a : List Char}
    (ha : a ≠ []) (h : p a.headI = false) : a.takeWhile p = [] := by
  cases a with
  | nil => simp at ha
  | cons x xs => simp only [List.headI] at h; simp [List.takeWhile_cons, h]

lemma dropWhile_head_false {p : Char → Bool} {a : List Char}
    (ha : a ≠ []) (h : p a.headI = false) : a.dropWhile p = a := by
  cases a with
  | nil => simp at ha
  | cons x xs => simp only [List.headI] at h; simp [List.dropWhile_cons, h]

lemma headI_takeWhile {p : Char → Bool} {a : List Char}
    (h : a.takeWhile p ≠ []) : (a.takeWhile p).headI = a.headI := by
  cases a with
  | nil => simp at h
  | cons x xs =>
      by_cases hp : p x
      · simp [List.takeWhile_cons, hp]
      · simp [List.takeWhile_cons, hp] at h

lemma takeWhile_take {p : Char → Bool} (a : List Char) (m : Nat) :
    (a.take m).takeWhile p = (a.takeWhile p).take m := by
  induction a generalizing m with
  | nil => simp
  | cons x xs ih =>
      cases m with
      | zero => simp
      | succ k =>
          by_cases hp : p x
          · simp [List.takeWhile_cons, hp, ih]
          · simp [List.takeWhile_cons, hp]

lemma takeWhile_stop_append {p : Char → Bool} {a : List Char} (b : List Char)
    (h : ¬ ∀ x ∈ a, p x = true) :
    (a ++ b).takeWhile p = a.takeWhile p := by
  rw [List.takeWhile_append]
  rw [if_neg]
  intro hlen
  exact h (List.takeWhile_eq_self_iff.mp
    ((List.Sublist.length_eq (List.takeWhile_sublist p)).mp hlen))

lemma getLast?_concat_char (a : List Char) (c : Char) :
    (a ++ [c]).getLast? = some c := by
  simp [List.getLast?_append]

lemma mem_of_mem_takeWhile {p : Char → Bool} {a : List Char} {x : Char}
    (h : x ∈ a.takeWhile p) : x ∈ a :=
  (List.takeWhile_sublist p).mem h

lemma mem_of_mem_take {a : List Char} {m : Nat} {x : Char}
    (h : x ∈ a.take m) : x ∈ a :=
  (List.take_sublist m a).mem h

/-! Lemmas about the url splitting and reassembly functions. -/

lemma isSchemeChar_ne_colon {c : Char} (h : isSchemeChar c = true) : c ≠ ':' := by
  intro he
  subst he
  exact absurd h (by decide)

/-- The condition under which splitScheme separates a scheme. -/
def schemeSplits (u : Str) : Prop :=
  (u.takeWhile (· ≠ ':')).length < u.length ∧ u.takeWhile (· ≠ ':') ≠ [] ∧
    (u.takeWhile (· ≠ ':')).headI.isAlpha = true ∧
    (u.takeWhile (· ≠ ':')).all isSchemeChar = true

lemma splitScheme_pos {u : Str} (h : schemeSplits u) :
    splitScheme u = (lowerStr (u.takeWhile (· ≠ ':')), (u.dropWhile (· ≠ ':')).tail) := by
  unfold splitScheme
  simp only []
  split
  · rfl
  · next hc => exact absurd h hc

lemma splitScheme_neg {u : Str} (h : ¬ schemeSplits u) : splitScheme u = ([], u) := by
  unfold splitScheme
  simp only []
  split
  · next hc => exact absurd hc h
  · rfl

lemma not_schemeSplits_of_eq {u : Str} (h : splitScheme u = ([], u)) :
    ¬ schemeSplits u := by
  intro hc
  rw [splitScheme_pos hc] at h
  have h1 : lowerStr (u.takeWhile (· ≠ ':')) = [] := congrArg Prod.fst h
  have h2 : u.takeWhile (· ≠ ':') = [] := by
    cases he : u.takeWhile (· ≠ ':') with
    | nil => rfl
    | cons a l => rw [he] at h1; exact absurd h1 (by simp [lowerStr])
  exact hc.2.1 h2

lemma splitScheme_valid (s u : Str) (hs : s ≠ []) (ha : s.headI.isAlpha = true)
    (hall : s.all isSchemeChar = true) :
    splitScheme (s ++ ':' :: u) = (lowerStr s, u) := by
  have hne : ∀ x ∈ s, (decide (x ≠ ':')) = true := by
    intro x hx
    simp only [decide_eq_true_eq]
    exact isSchemeChar_ne_colon (List.all_eq_true.mp hall x hx)
  have hpre : (s ++ ':' :: u).takeWhile (· ≠ ':') = s := by
    rw [takeWhile_append_all hne]
    simp [List.takeWhile_cons]
  have hdrop : (s ++ ':' :: u).dropWhile (· ≠ ':') = ':' :: u := by
    rw [dropWhile_append_all hne]
    simp [List.dropWhile_cons]
  have hcond : schemeSplits (s ++ ':' :: u) := by
    refine ⟨?_, ?_, ?_, ?_⟩
    · rw [hpre]; simp only [List.length_append, List.length_cons]; omega
    · rw [hpre]; exact hs
    · rw [hpre]; exact ha
    · rw [hpre]; exact hall
  rw [splitScheme_pos hcond, hpre, hdrop]
  simp

lemma takeWhile_length_lt_of_mem {p : Char → Bool} {u : Str} {x : Char}
    (hx : x ∈ u) (hp : p x = false) : (u.takeWhile p).length < u.length := by
  have hne : u.takeWhile p ≠ u := by
    intro he
    have := List.mem_takeWhile_imp (he ▸ hx)
    rw [hp] at this
    exact absurd this (by simp)
  have hle := (List.takeWhile_sublist p (l := u)).length_le
  rcases Nat.lt_or_ge (u.takeWhile p).length u.length with h | h
  · exact h
  · exact absurd ((List.Sublist.length_eq (List.takeWhile_sublist p)).mp
      (Nat.le_antisymm hle h)) hne

lemma not_schemeSplits_headI {u : Str} (h : u.headI.isAlpha = false) :
    ¬ schemeSplits u := by
  rintro ⟨h1, h2, h3, h4⟩
  rw [headI_takeWhile h2, h] at h3
  exact absurd h3 (by simp)

lemma not_schemeSplits_pref {x t : Str} (h : ¬ schemeSplits x) (ht : t <+: x) :
    ¬ schemeSplits t ∧ ¬ schemeSplits (t ++ ['/']) := by
  obtain ⟨r, rfl⟩ := ht
  by_cases hc : ':' ∈ t
  · have hstop : ¬ ∀ y ∈ t, (decide (y ≠ ':')) = true := by
      intro hall
      have := hall ':' hc
      simp at this
    have hxt : (t ++ r).takeWhile (· ≠ ':') = t.takeWhile (· ≠ ':') :=
      takeWhile_stop_append r hstop
    have hts : (t ++ ['/']).takeWhile (· ≠ ':') = t.takeWhile (· ≠ ':') :=
      takeWhile_stop_append ['/'] hstop
    have hlt : (t.takeWhile (· ≠ ':')).length < t.length :=
      takeWhile_length_lt_of_mem hc (by simp)
    have hfail : ¬ (t.takeWhile (· ≠ ':') ≠ [] ∧
        (t.takeWhile (· ≠ ':')).headI.isAlpha = true ∧
        (t.takeWhile (· ≠ ':')).all isSchemeChar = true) := by
      rintro ⟨h1, h2, h3⟩
      apply h
      refine ⟨?_, ?_, ?_, ?_⟩
      · rw [hxt]
        calc (t.takeWhile (· ≠ ':')).length < t.length := hlt
          _ ≤ (t ++ r).length := by simp
      · rw [hxt]; exact h1
      · rw [hxt]; exact h2
      · rw [hxt]; exact h3
    constructor
    · rintro ⟨hc1, hc2, hc3, hc4⟩
      exact hfail ⟨hc2, hc3, hc4⟩
    · rintro ⟨hc1, hc2, hc3, hc4⟩
      rw [hts] at hc2 hc3 hc4
      exact hfail ⟨hc2, hc3, hc4⟩
  · have h1 : t.takeWhile (· ≠ ':') = t :=
      takeWhile_eq_self_of_all (by
        intro y hy
        simp only [decide_eq_true_eq]
        intro he
        exact hc (he ▸ hy))
    have h2 : (t ++ ['/']).takeWhile (· ≠ ':') = t ++ ['/'] :=
      takeWhile_eq_self_of_all (by
        intro y hy
        simp only [List.mem_append, List.mem_singleton] at hy
        simp only [decide_eq_true_eq]
        rcases hy with hy | rfl
        · intro he; exact hc (he ▸ hy)
        · decide)
    constructor
    · rintro ⟨hc1, hc2, hc3, hc4⟩
      rw [h1] at hc1
      omega
    · rintro ⟨hc1, hc2, hc3, hc4⟩
      rw [h2] at hc1
      omega

lemma splitNetloc_pos (rest : Str) :
    splitNetloc ('/' :: '/' :: rest) =
      (rest.takeWhile (fun c => ¬ isNetlocEnd c),
       rest.dropWhile (fun c => ¬ isNetlocEnd c)) := by
  unfold splitNetloc
  rw [if_pos (by simp)]
  rfl

lemma splitNetloc_neg {u : Str} (h : u.take 2 ≠ ['/', '/']) :
    splitNetloc u = ([], u) := by
  unfold splitNetloc
  rw [if_neg h]

lemma splitOnFirst_not_mem {c : Char} {s : Str} (h : c ∉ s) :
    splitOnFirst c s = (s, []) := by
  unfold splitOnFirst
  have h1 : s.takeWhile (· ≠ c) = s :=
    takeWhile_eq_self_of_all (by
      intro y hy
      simp only [decide_eq_true_eq]
      intro he
      exact h (he ▸ hy))
  have h2 : s.dropWhile (· ≠ c) = [] :=
    dropWhile_eq_nil_of_all (by
      intro y hy
      simp only [decide_eq_true_eq]
      intro he
      exact h (he ▸ hy))
  rw [h1, h2]
  rfl

lemma contains_iff_mem {c : Char} {s : Str} : s.contains c = true ↔ c ∈ s := by
  simp [List.contains_iff_exists_mem_beq, beq_iff_eq]

lemma lastSeg_of_last_slash {s : Str} (h : s.getLast? = some '/') :
    lastSeg s = [] := by
  unfold lastSeg
  have hrev : s.reverse.headI = '/' := by
    cases hs : s.reverse with
    | nil =>
        rw [List.reverse_eq_nil_iff] at hs
        subst hs
        simp at h
    | cons a l =>
        have hha : s.reverse.head? = some a := by rw [hs]; rfl
        rw [List.head?_reverse] at hha
        rw [h] at hha
        injection hha with hh
        rw [← hh]
        rfl
  have hne : s.reverse ≠ [] := by
    intro hs
    rw [List.reverse_eq_nil_iff] at hs
    subst hs
    simp at h
  rw [takeWhile_head_false hne (by rw [hrev]; simp)]
  rfl

lemma splitparams_last_slash {s : Str} (h : s.getLast? = some '/') :
    splitparams s = (s, []) := by
  unfold splitparams
  have hmem : '/' ∈ s := List.mem_of_mem_getLast? h
  rw [if_pos (contains_iff_mem.mpr hmem)]
  simp only [lastSeg_of_last_slash h]
  rw [if_neg (by simp)]

lemma lowerStr_idem (s : Str) : lowerStr (lowerStr s) = lowerStr s := by
  unfold lowerStr
  rw [List.map_map]
  apply List.map_congr_left
  intro c _
  exact char_toLower_idem c

lemma lowerStr_eq_nil_iff {s : Str} : lowerStr s = [] ↔ s = [] := by
  unfold lowerStr
  simp

lemma headI_lowerStr {s : Str} (h : s ≠ []) :
    (lowerStr s).headI = s.headI.toLower := by
  cases s with
  | nil => exact absurd rfl h
  | cons a l => rfl

lemma isSchemeChar_toLower {c : Char} (h : isSchemeChar c = true) :
    isSchemeChar c.toLower = true := by
  simp only [isSchemeChar, Bool.or_eq_true, decide_eq_true_eq] at h ⊢
  rcases h with (((h | h) | h) | h) | h
  · exact Or.inl (Or.inl (Or.inl (Or.inl (char_isAlpha_toLower c h))))
  · refine Or.inl (Or.inl (Or.inl (Or.inr ?_)))
    have hd : 48 ≤ c.toNat ∧ c.toNat ≤ 57 := by
      simp only [Char.isDigit, Bool.and_eq_true, decide_eq_true_eq] at h
      exact h
    rw [char_toLower_eq_of_not c (by omega)]
    exact h
  · subst h; decide
  · subst h; decide
  · subst h; decide

lemma all_isSchemeChar_lowerStr {s : Str} (h : s.all isSchemeChar = true) :
    (lowerStr s).all isSchemeChar = true := by
  rw [List.all_eq_true] at h ⊢
  intro x hx
  unfold lowerStr at hx
  rw [List.mem_map] at hx
  obtain ⟨c, hc, rfl⟩ := hx
  exact isSchemeChar_toLower (h c hc)

lemma filter_eq_self_of_all {p : Char → Bool} {s : Str}
    (h : ∀ x ∈ s, p x = true) : s.filter p = s :=
  List.filter_eq_self.mpr h

lemma sanitizeUrl_eq_self {s : Str}
    (hsafe : ∀ x ∈ s, isUnsafeUrlByte x = false)
    (hhead : s = [] ∨ isC0OrSpace s.headI = false) :
    sanitizeUrl s = s := by
  unfold sanitizeUrl
  rcases hhead with rfl | hhead
  · rfl
  · by_cases hs : s = []
    · subst hs; rfl
    · rw [dropWhile_head_false hs hhead]
      apply filter_eq_self_of_all
      intro x hx
      rw [hsafe x hx]
      rfl

lemma char_isAlpha_not_C0 {c : Char} (h : c.isAlpha = true) :
    isC0OrSpace c = false := by
  have hb := char_isAlpha_nat c h
  simp only [isC0OrSpace, decide_eq_false_iff_not]
  omega

lemma isSchemeChar_not_unsafe {c : Char} (h : isSchemeChar c = true) :
    isUnsafeUrlByte c = false := by
  cases hu : isUnsafeUrlByte c with
  | false => rfl
  | true =>
      simp only [isUnsafeUrlByte, Bool.or_eq_true, decide_eq_true_eq] at hu
      rcases hu with (rfl | rfl) | rfl
      · exact absurd h (by decide)
      · exact absurd h (by decide)
      · exact absurd h (by decide)

lemma getLast?_cons_of_ne {c : Char} {p : Str} (h : p ≠ []) :
    (c :: p).getLast? = p.getLast? := by
  have : (c :: p) = [c] ++ p := rfl
  rw [this, List.getLast?_append]
  cases hp : p.getLast? with
  | none => rw [List.getLast?_eq_none_iff] at hp; exact absurd hp h
  | some x => rfl

/-- Parsing the tail stages (fragment, query, params) of a path that ends in
a slash and contains no hash or question mark returns the path unchanged. -/
lemma tail_stages (sch pp : Str) (HPh : '#' ∉ pp) (HPq : '?' ∉ pp)
    (HPl : pp.getLast? = some '/') :
    (splitOnFirst '#' pp).1 = pp ∧ (splitOnFirst '#' pp).2 = [] ∧
    (splitOnFirst '?' pp).1 = pp ∧ (splitOnFirst '?' pp).2 = [] ∧
    (if sch ∈ usesParams ∧ pp.contains ';' = true then splitparams pp
      else (pp, [])) = (pp, []) := by
  have h1 := splitOnFirst_not_mem HPh
  have h2 := splitOnFirst_not_mem HPq
  refine ⟨by rw [h1], by rw [h1], by rw [h2], by rw [h2], ?_⟩
  split
  · exact splitparams_last_slash HPl
  · rfl

/-- Round trip: parsing the reassembled canonical components gives them back,
except that reassembly under an empty netloc with a netloc-using scheme puts
a slash in front of a relative path. -/
lemma parse_unsplit_canonical
    (s n p : Str)
    (HS : s = [] ∨ (s ≠ [] ∧ s.headI.isAlpha = true ∧
      s.all isSchemeChar = true ∧ lowerStr s = s))
    (HN : ∀ x ∈ n, isNetlocEnd x = false)
    (HNsafe : ∀ x ∈ n, isUnsafeUrlByte x = false)
    (HPsafe : ∀ x ∈ p, isUnsafeUrlByte x = false)
    (HPh : '#' ∉ p) (HPq : '?' ∉ p)
    (HPl : p.getLast? = some '/')
    (HNP : n ≠ [] → p.headI = '/')
    (HnoS : s = [] → n = [] → p.take 2 ≠ ['/', '/'] → ¬ schemeSplits p)
    (HheadP : s = [] → n = [] → isC0OrSpace p.headI = false)
    (HOK : n ≠ [] ∨ p.take 2 ≠ ['/', '/']) :
    urlparse (urlunsplit s n p [] []) =
      ⟨s, n,
        if n = [] ∧ s ≠ [] ∧ s ∈ usesNetloc ∧ p.headI ≠ '/' then '/' :: p
        else p,
        [], [], []⟩ := by
  have hp_ne : p ≠ [] := by
    intro h
    rw [h] at HPl
    simp at HPl
  by_cases hcond : n ≠ [] ∨ (s ≠ [] ∧ s ∈ usesNetloc ∧ p.take 2 ≠ ['/', '/'])
  · -- the double slash is re-added
    set pp : Str := if p ≠ [] ∧ p.headI ≠ '/' then '/' :: p else p with hpp
    have hu1 : urlunsplit s n p [] [] =
        (if s ≠ [] then s ++ ':' :: ('/' :: '/' :: (n ++ pp))
         else '/' :: '/' :: (n ++ pp)) := by
      unfold urlunsplit
      simp only []
      rw [if_pos hcond]
      rw [if_neg (by simp), if_neg (by simp)]
      simp only [List.cons_append]
    have hpp_head : pp.headI = '/' := by
      rw [hpp]
      by_cases hq : p ≠ [] ∧ p.headI ≠ '/'
      · rw [if_pos hq]
        rfl
      · rw [if_neg hq]
        rcases not_and_or.mp hq with hx | hx
        · exact absurd hp_ne hx
        · exact not_not.mp hx
    have hpp_ne : pp ≠ [] := by
      rw [hpp]
      by_cases hq : p ≠ [] ∧ p.headI ≠ '/'
      · rw [if_pos hq]
        simp
      · rw [if_neg hq]
        exact hp_ne
    have hpp_mem : ∀ x, x ∈ pp → x = '/' ∨ x ∈ p := by
      intro x hx
      rw [hpp] at hx
      by_cases hq : p ≠ [] ∧ p.headI ≠ '/'
      · rw [if_pos hq] at hx
        rcases List.mem_cons.mp hx with rfl | hx
        · exact Or.inl rfl
        · exact Or.inr hx
      · rw [if_neg hq] at hx
        exact Or.inr hx
    have hpp_h : '#' ∉ pp := by
      intro hx
      rcases hpp_mem _ hx with he | hx
      · exact absurd he (by decide)
      · exact HPh hx
    have hpp_q : '?' ∉ pp := by
      intro hx
      rcases hpp_mem _ hx with he | hx
      · exact absurd he (by decide)
      · exact HPq hx
    have hpp_l : pp.getLast? = some '/' := by
      rw [hpp]
      by_cases hq : p ≠ [] ∧ p.headI ≠ '/'
      · rw [if_pos hq, getLast?_cons_of_ne hp_ne]
        exact HPl
      · rw [if_neg hq]
        exact HPl
    have hnl : splitNetloc ('/' :: '/' :: (n ++ pp)) = (n, pp) := by
      unfold splitNetloc
      rw [if_pos (by simp)]
      have hdrop2 : (('/' : Char) :: '/' :: (n ++ pp)).drop 2 = n ++ pp := rfl
      rw [hdrop2]
      have hpred : ∀ x ∈ n, (fun c => ¬ isNetlocEnd c = true) x = true := by
        intro x hx
        simp [HN x hx]
      congr 1
      · rw [takeWhile_append_all (by intro x hx; simpa using hpred x hx)]
        rw [takeWhile_head_false hpp_ne (by rw [hpp_head]; decide)]
        simp
      · rw [dropWhile_append_all (by intro x hx; simpa using hpred x hx)]
        rw [dropWhile_head_false hpp_ne (by rw [hpp_head]; decide)]
    have hsafe_tail : ∀ x ∈ ('/' :: '/' :: (n ++ pp)),
        isUnsafeUrlByte x = false := by
      intro x hx
      rcases List.mem_cons.mp hx with rfl | hx
      · decide
      · rcases List.mem_cons.mp hx with rfl | hx
        · decide
        · rcases List.mem_append.mp hx with hx | hx
          · exact HNsafe x hx
          · rcases hpp_mem _ hx with rfl | hx
            · decide
            · exact HPsafe x hx
    have hscheme : splitScheme (sanitizeUrl (urlunsplit s n p [] [])) =
        (s, '/' :: '/' :: (n ++ pp)) := by
      rcases HS with rfl | ⟨hs1, hs2, hs3, hs4⟩
      · rw [hu1]
        rw [if_neg (by simp)]
        rw [sanitizeUrl_eq_self hsafe_tail
          (Or.inr (show isC0OrSpace '/' = false by decide))]
        exact splitScheme_neg
          (not_schemeSplits_headI (show Char.isAlpha '/' = false by decide))
      · rw [hu1, if_pos hs1]
        have hsafe_all : ∀ x ∈ s ++ ':' :: ('/' :: '/' :: (n ++ pp)),
            isUnsafeUrlByte x = false := by
          intro x hx
          rcases List.mem_append.mp hx with hx | hx
          · exact isSchemeChar_not_unsafe (List.all_eq_true.mp hs3 x hx)
          · rcases List.mem_cons.mp hx with rfl | hx
            · decide
            · exact hsafe_tail x hx
        have hhead : (s ++ ':' :: ('/' :: '/' :: (n ++ pp))).headI = s.headI := by
          cases s with
          | nil => exact absurd rfl hs1
          | cons a l => rfl
        rw [sanitizeUrl_eq_self hsafe_all
          (Or.inr (by rw [hhead]; exact char_isAlpha_not_C0 hs2))]
        rw [splitScheme_valid s _ hs1 hs2 hs3, hs4]
    have hts := tail_stages s pp hpp_h hpp_q hpp_l
    have hfin : pp = (if n = [] ∧ s ≠ [] ∧ s ∈ usesNetloc ∧ p.headI ≠ '/'
        then '/' :: p else p) := by
      rw [hpp]
      by_cases hph : p.headI = '/'
      · rw [if_neg (show ¬ (p ≠ [] ∧ p.headI ≠ '/') from fun hx => hx.2 hph),
          if_neg (show ¬ (n = [] ∧ s ≠ [] ∧ s ∈ usesNetloc ∧ p.headI ≠ '/')
            from fun hx => hx.2.2.2 hph)]
      · by_cases hn : n = []
        · rcases hcond with hc | hc
          · exact absurd hn hc
          · rw [if_pos ⟨hp_ne, hph⟩, if_pos ⟨hn, hc.1, hc.2.1, hph⟩]
        · exact absurd (HNP hn) hph
    unfold urlparse
    simp only [hscheme, hnl, hts.1, hts.2.1, hts.2.2.1, hts.2.2.2.1,
      hts.2.2.2.2]
    rw [← hfin]
  · -- no double slash: the path is passed through unchanged
    have hn : n = [] := by
      by_contra hx
      exact hcond (Or.inl hx)
    have htake : p.take 2 ≠ ['/', '/'] := by
      rcases HOK with hx | hx
      · exact absurd hn hx
      · exact hx
    have hu1 : urlunsplit s n p [] [] =
        (if s ≠ [] then s ++ ':' :: p else p) := by
      unfold urlunsplit
      simp only []
      rw [if_neg hcond]
      rw [if_neg (by simp), if_neg (by simp)]
    have hscheme : splitScheme (sanitizeUrl (urlunsplit s n p [] [])) = (s, p) := by
      rcases HS with rfl | ⟨hs1, hs2, hs3, hs4⟩
      · rw [hu1, if_neg (by simp)]
        rw [sanitizeUrl_eq_self HPsafe (Or.inr (HheadP rfl hn))]
        exact splitScheme_neg (HnoS rfl hn htake)
      · rw [hu1, if_pos hs1]
        have hsafe_all : ∀ x ∈ s ++ ':' :: p, isUnsafeUrlByte x = false := by
          intro x hx
          rcases List.mem_append.mp hx with hx | hx
          · exact isSchemeChar_not_unsafe (List.all_eq_true.mp hs3 x hx)
          · rcases List.mem_cons.mp hx with rfl | hx
            · decide
            · exact HPsafe x hx
        have hhead : (s ++ ':' :: p).headI = s.headI := by
          cases s with
          | nil => exact absurd rfl hs1
          | cons a l => rfl
        rw [sanitizeUrl_eq_self hsafe_all
          (Or.inr (by rw [hhead]; exact char_isAlpha_not_C0 hs2))]
        rw [splitScheme_valid s _ hs1 hs2 hs3, hs4]
    have hnl : splitNetloc p = ([], p) := splitNetloc_neg htake
    have hts := tail_stages s p HPh HPq HPl
    have hfin : (if n = [] ∧ s ≠ [] ∧ s ∈ usesNetloc ∧ p.headI ≠ '/'
        then '/' :: p else p) = p := by
      rw [if_neg]
      intro hx
      exact hcond (Or.inr ⟨hx.2.1, hx.2.2.1, htake⟩)
    unfold urlparse
    simp only [hscheme, hnl, hts.1, hts.2.1, hts.2.2.1, hts.2.2.2.1,
      hts.2.2.2.2]
    rw [hfin, hn]

lemma headI_append_of_ne {a : Str} (b : Str) (h : a ≠ []) :
    (a ++ b).headI = a.headI := by
  cases a with
  | nil => exact absurd rfl h
  | cons x l => rfl

lemma isSuffixOf_getLast? {s l : Str} (h : s.isSuffixOf l = true) (hs : s ≠ []) :
    l.getLast? = s.getLast? := by
  rw [List.isSuffixOf_iff_suffix] at h
  obtain ⟨t, rfl⟩ := h
  rw [List.getLast?_append]
  cases hg : s.getLast? with
  | none => rw [List.getLast?_eq_none_iff] at hg; exact absurd hg hs
  | some c => rfl

lemma take_append_head {a b : Str} (hb : b ≠ []) :
    (a ++ b).take (a.length + 1) = a ++ [b.headI] := by
  cases b with
  | nil => exact absurd rfl hb
  | cons x l =>
      rw [List.take_append_eq_append_take]
      simp

/-- The canonical path always ends in a slash. -/
lemma canonicalPath_last (p0 : Str) : (canonicalPath p0).getLast? = some '/' := by
  unfold canonicalPath
  simp only []
  by_cases h1 : INDEX_HTML.isSuffixOf p0 = true
  · rw [if_pos h1]
    have hsfx := h1
    rw [List.isSuffixOf_iff_suffix] at hsfx
    obtain ⟨t, rfl⟩ := hsfx
    have hlen : (t ++ INDEX_HTML).length - 10 = t.length + 1 := by
      simp [INDEX_HTML, str]
    rw [hlen, take_append_head (by simp [INDEX_HTML, str])]
    have hh : (INDEX_HTML).headI = '/' := rfl
    rw [hh]
    simp [getLast?_concat_char]
  · rw [if_neg h1]
    by_cases h2 : INDEX_HTM.isSuffixOf p0 = true
    · rw [if_pos h2]
      have hsfx := h2
      rw [List.isSuffixOf_iff_suffix] at hsfx
      obtain ⟨t, rfl⟩ := hsfx
      have hlen : (t ++ INDEX_HTM).length - 9 = t.length + 1 := by
        simp [INDEX_HTM, str]
      rw [hlen, take_append_head (by simp [INDEX_HTM, str])]
      have hh : (INDEX_HTM).headI = '/' := rfl
      rw [hh]
      simp [getLast?_concat_char]
    · rw [if_neg h2]
      by_cases h3 : p0.getLast? = some '/'
      · rw [if_pos h3]
        exact h3
      · rw [if_neg h3]
        exact getLast?_concat_char p0 '/'

/-- The canonical path of a path that already ends in a slash is itself. -/
lemma canonicalPath_of_last {q : Str} (h : q.getLast? = some '/') :
    canonicalPath q = q := by
  unfold canonicalPath
  simp only []
  have h1 : INDEX_HTML.isSuffixOf q = false := by
    cases hb : INDEX_HTML.isSuffixOf q with
    | false => rfl
    | true =>
        have := isSuffixOf_getLast? hb (by simp [INDEX_HTML, str])
        rw [h] at this
        exact absurd this (by decide)
  have h2 : INDEX_HTM.isSuffixOf q = false := by
    cases hb : INDEX_HTM.isSuffixOf q with
    | false => rfl
    | true =>
        have := isSuffixOf_getLast? hb (by simp [INDEX_HTM, str])
        rw [h] at this
        exact absurd this (by decide)
  rw [h1, h2]
  simp only [Bool.false_eq_true, if_false]
  rw [if_pos h]

/-- The canonical path is nonempty. -/
lemma canonicalPath_ne (p0 : Str) : canonicalPath p0 ≠ [] := by
  intro h
  have := canonicalPath_last p0
  rw [h] at this
  simp at this

/-- The canonical path is a take-prefix of the original path, possibly with a
slash appended. -/
lemma canonicalPath_shape (p0 : Str) :
    ∃ t, t <+: p0 ∧ (canonicalPath p0 = t ∨ canonicalPath p0 = t ++ ['/']) := by
  unfold canonicalPath
  simp only []
  by_cases h1 : INDEX_HTML.isSuffixOf p0 = true
  · rw [if_pos h1]
    refine ⟨p0.take (p0.length - 10), List.take_prefix _ _, ?_⟩
    split
    · exact Or.inl rfl
    · exact Or.inr rfl
  · rw [if_neg h1]
    by_cases h2 : INDEX_HTM.isSuffixOf p0 = true
    · rw [if_pos h2]
      refine ⟨p0.take (p0.length - 9), List.take_prefix _ _, ?_⟩
      split
      · exact Or.inl rfl
      · exact Or.inr rfl
    · rw [if_neg h2]
      refine ⟨p0, List.prefix_refl p0, ?_⟩
      split
      · exact Or.inl rfl
      · exact Or.inr rfl

/-- Membership in the canonical path comes from the original path or the
added slash. -/
lemma canonicalPath_mem {p0 : Str} {x : Char} (h : x ∈ canonicalPath p0) :
    x ∈ p0 ∨ x = '/' := by
  obtain ⟨t, ht, hc | hc⟩ := canonicalPath_shape p0
  · rw [hc] at h
    exact Or.inl (ht.mem h)
  · rw [hc] at h
    rcases List.mem_append.mp h with h | h
    · exact Or.inl (ht.mem h)
    · simp at h
      exact Or.inr h

/-- When the original path is nonempty, the canonical path keeps its head;
the canonical path of the empty path is a bare slash. -/
lemma canonicalPath_headI (p0 : Str) :
    (p0 = [] ∧ canonicalPath p0 = ['/']) ∨
    (p0 ≠ [] ∧ (canonicalPath p0).headI = p0.headI) := by
  by_cases hp : p0 = []
  · subst hp
    exact Or.inl ⟨rfl, rfl⟩
  · refine Or.inr ⟨hp, ?_⟩
    unfold canonicalPath
    simp only []
    have htake : ∀ k, 1 ≤ k → (p0.take k).headI = p0.headI := by
      intro k hk
      cases p0 with
      | nil => exact absurd rfl hp
      | cons a l =>
          cases k with
          | zero => omega
          | succ m => rfl
    by_cases h1 : INDEX_HTML.isSuffixOf p0 = true
    · rw [if_pos h1]
      have hsfx := h1
      rw [List.isSuffixOf_iff_suffix] at hsfx
      obtain ⟨t, hteq⟩ := hsfx
      have hlen : 1 ≤ p0.length - 10 := by
        rw [← hteq]
        simp [INDEX_HTML, str]
      have hne : p0.take (p0.length - 10) ≠ [] := by
        intro hz
        have := congrArg List.length hz
        simp at this
        omega
      split
      · exact htake _ hlen
      · rw [headI_append_of_ne _ hne]
        exact htake _ hlen
    · rw [if_neg h1]
      by_cases h2 : INDEX_HTM.isSuffixOf p0 = true
      · rw [if_pos h2]
        have hsfx := h2
        rw [List.isSuffixOf_iff_suffix] at hsfx
        obtain ⟨t, hteq⟩ := hsfx
        have hlen : 1 ≤ p0.length - 9 := by
          rw [← hteq]
          simp [INDEX_HTM, str]
        have hne : p0.take (p0.length - 9) ≠ [] := by
          intro hz
          have := congrArg List.length hz
          simp at this
          omega
        split
        · exact htake _ hlen
        · rw [headI_append_of_ne _ hne]
          exact htake _ hlen
      · rw [if_neg h2]
        split
        · rfl
        · rw [headI_append_of_ne _ hp]

lemma headI_mem_self {l : Str} (h : l ≠ []) : l.headI ∈ l := by
  cases l with
  | nil => exact absurd rfl h
  | cons a t => simp

lemma prefix_headI {t l : Str} (h : t <+: l) (ht : t ≠ []) :
    t.headI = l.headI := by
  obtain ⟨w, rfl⟩ := h
  exact (headI_append_of_ne w ht).symm

lemma headI_dropWhile_false {p : Char → Bool} {l : Str}
    (h : l.dropWhile p ≠ []) : p (l.dropWhile p).headI = false := by
  induction l with
  | nil => simp at h
  | cons a t ih =>
      rw [List.dropWhile_cons] at h ⊢
      by_cases hp : p a = true
      · rw [if_pos hp] at h ⊢
        exact ih h
      · have hp2 : p a = false := by
          cases hb : p a
          · rfl
          · exact absurd hb hp
        rw [if_neg hp] at h ⊢
        simpa using hp2

lemma lastSeg_decomp (q : Str) :
    q = q.take (q.length - (lastSeg q).length) ++ lastSeg q := by
  have hL : lastSeg q = (q.reverse.takeWhile (· ≠ '/')).reverse := rfl
  have hd : q = (q.reverse.dropWhile (· ≠ '/')).reverse ++
      (q.reverse.takeWhile (· ≠ '/')).reverse := by
    conv_lhs => rw [← List.reverse_reverse q,
      ← List.takeWhile_append_dropWhile (· ≠ '/') q.reverse]
    rw [List.reverse_append]
  have hlen : ((q.reverse.dropWhile (· ≠ '/')).reverse).length =
      q.length - ((q.reverse.takeWhile (· ≠ '/')).reverse).length := by
    have h1 := congrArg List.length
      (List.takeWhile_append_dropWhile (· ≠ '/') q.reverse)
    simp only [List.length_append, List.length_reverse] at h1 ⊢
    omega
  have htake : q.take (q.length - (lastSeg q).length) =
      (q.reverse.dropWhile (· ≠ '/')).reverse := by
    have h2 : q.take (q.length - (lastSeg q).length) =
        ((q.reverse.dropWhile (· ≠ '/')).reverse ++
         (q.reverse.takeWhile (· ≠ '/')).reverse).take
          (q.length - (lastSeg q).length) := by
      rw [← hd]
    rw [h2]
    apply List.take_left'
    rw [hlen, hL]
  rw [htake, hL]
  conv_lhs => rw [hd]

lemma splitparams_fst_prefix (q : Str) : (splitparams q).1 <+: q := by
  unfold splitparams
  by_cases h1 : q.contains '/' = true
  · rw [if_pos h1]
    simp only []
    by_cases h2 : (lastSeg q).contains ';' = true
    · rw [if_pos h2]
      refine ⟨(lastSeg q).dropWhile (· ≠ ';'), ?_⟩
      simp only []
      rw [List.append_assoc, List.takeWhile_append_dropWhile]
      exact (lastSeg_decomp q).symm
    · rw [if_neg h2]
  · rw [if_neg h1]
    exact List.takeWhile_prefix _

lemma mem_sanitize_safe {x : Str} {c : Char} (h : c ∈ sanitizeUrl x) :
    isUnsafeUrlByte c = false := by
  unfold sanitizeUrl at h
  have := List.of_mem_filter h
  simpa using this

lemma sanitize_headI_not_C0 {x : Str} (h : sanitizeUrl x ≠ []) :
    isC0OrSpace (sanitizeUrl x).headI = false := by
  unfold sanitizeUrl at h ⊢
  cases hdc : x.dropWhile isC0OrSpace with
  | nil =>
      rw [hdc] at h
      exact absurd rfl h
  | cons a t =>
      have hdh : isC0OrSpace a = false := by
        have h2 : x.dropWhile isC0OrSpace ≠ [] := by rw [hdc]; simp
        have h3 := headI_dropWhile_false h2
        rw [hdc] at h3
        simpa using h3
      have hsafe : isUnsafeUrlByte a = false := by
        cases hu : isUnsafeUrlByte a with
        | false => rfl
        | true =>
            simp only [isUnsafeUrlByte, Bool.or_eq_true, decide_eq_true_eq] at hu
            rcases hu with (rfl | rfl) | rfl
            · exact absurd hdh (by decide)
            · exact absurd hdh (by decide)
            · exact absurd hdh (by decide)
      rw [List.filter_cons]
      simp only [hsafe]
      simpa using hdh

/-- The path component computed by urlparse from the remainder after the
scheme split (proof-layer abbreviation for the urlparse pipeline). -/
def pathOf (sch rest1 : Str) : Str :=
  (if sch ∈ usesParams ∧
      ((splitOnFirst '?' (splitOnFirst '#' (splitNetloc rest1).2).1).1).contains ';'
   then splitparams (splitOnFirst '?' (splitOnFirst '#' (splitNetloc rest1).2).1).1
   else ((splitOnFirst '?' (splitOnFirst '#' (splitNetloc rest1).2).1).1, [])).1

lemma urlparse_scheme (x : Str) :
    (urlparse x).scheme = (splitScheme (sanitizeUrl x)).1 := rfl

lemma urlparse_netloc (x : Str) :
    (urlparse x).netloc = (splitNetloc (splitScheme (sanitizeUrl x)).2).1 := rfl

lemma urlparse_path (x : Str) :
    (urlparse x).path =
      pathOf (splitScheme (sanitizeUrl x)).1 (splitScheme (sanitizeUrl x)).2 := rfl

lemma splitNetloc_take2 {u : Str} (h : u.take 2 = ['/', '/']) :
    splitNetloc u = ((u.drop 2).takeWhile (fun c => ¬ isNetlocEnd c),
      (u.drop 2).dropWhile (fun c => ¬ isNetlocEnd c)) := by
  unfold splitNetloc
  rw [if_pos h]

lemma netloc_path_facts (sch rest1 : Str) :
    (∀ c ∈ (splitNetloc rest1).1, isNetlocEnd c = false) ∧
    (∀ c ∈ (splitNetloc rest1).1, c ∈ rest1) ∧
    (∀ c ∈ pathOf sch rest1, c ∈ rest1) ∧
    ('#' ∉ pathOf sch rest1) ∧ ('?' ∉ pathOf sch rest1) ∧
    (rest1.take 2 = ['/', '/'] →
      (pathOf sch rest1 = [] ∨ (pathOf sch rest1).headI = '/')) ∧
    (rest1.take 2 ≠ ['/', '/'] → pathOf sch rest1 <+: rest1) := by
  have hr3pre : (splitOnFirst '#' (splitNetloc rest1).2).1 <+:
      (splitNetloc rest1).2 := List.takeWhile_prefix _
  have hr4pre : (splitOnFirst '?' (splitOnFirst '#' (splitNetloc rest1).2).1).1 <+:
      (splitOnFirst '#' (splitNetloc rest1).2).1 := List.takeWhile_prefix _
  have hppre : pathOf sch rest1 <+:
      (splitOnFirst '?' (splitOnFirst '#' (splitNetloc rest1).2).1).1 := by
    unfold pathOf
    split
    · exact splitparams_fst_prefix _
    · exact List.prefix_refl _
  have hpath_r2 : pathOf sch rest1 <+: (splitNetloc rest1).2 :=
    hppre.trans (hr4pre.trans hr3pre)
  have hnoq : '?' ∉ pathOf sch rest1 := by
    intro hq
    have hq4 := hppre.mem hq
    have := List.mem_takeWhile_imp hq4
    simp at this
  have hnoh : '#' ∉ pathOf sch rest1 := by
    intro hq
    have hq3 := (hppre.trans hr4pre).mem hq
    have := List.mem_takeWhile_imp hq3
    simp at this
  have hrest2_mem : ∀ c ∈ (splitNetloc rest1).2, c ∈ rest1 := by
    intro c hc
    unfold splitNetloc at hc
    by_cases ht : rest1.take 2 = ['/', '/']
    · rw [if_pos ht] at hc
      simp only [] at hc
      exact (List.drop_sublist 2 rest1).mem ((List.dropWhile_sublist _).mem hc)
    · rw [if_neg ht] at hc
      exact hc
  have hhead2 : rest1.take 2 = ['/', '/'] →
      ((splitNetloc rest1).2 = [] ∨
       isNetlocEnd ((splitNetloc rest1).2).headI = true) := by
    intro ht
    rw [splitNetloc_take2 ht]
    simp only []
    cases hd : (rest1.drop 2).dropWhile (fun c => ¬ isNetlocEnd c) with
    | nil => exact Or.inl rfl
    | cons a t =>
        refine Or.inr ?_
        have hne : (rest1.drop 2).dropWhile (fun c => ¬ isNetlocEnd c) ≠ [] := by
          rw [hd]
          simp
        have h3 := headI_dropWhile_false hne
        rw [hd] at h3
        simpa using h3
  refine ⟨?_, ?_, ?_, hnoh, hnoq, ?_, ?_⟩
  · intro c hc
    unfold splitNetloc at hc
    by_cases ht : rest1.take 2 = ['/', '/']
    · rw [if_pos ht] at hc
      simp only [] at hc
      have := List.mem_takeWhile_imp hc
      simpa using this
    · rw [if_neg ht] at hc
      simp at hc
  · intro c hc
    unfold splitNetloc at hc
    by_cases ht : rest1.take 2 = ['/', '/']
    · rw [if_pos ht] at hc
      simp only [] at hc
      exact (List.drop_sublist 2 rest1).mem (mem_of_mem_takeWhile hc)
    · rw [if_neg ht] at hc
      simp at hc
  · intro c hc
    exact hrest2_mem c (hpath_r2.mem hc)
  · intro ht
    by_cases hp : pathOf sch rest1 = []
    · exact Or.inl hp
    · refine Or.inr ?_
      have hr2ne : (splitNetloc rest1).2 ≠ [] := by
        intro hz
        rw [hz] at hpath_r2
        exact hp (List.prefix_nil.mp hpath_r2)
      have hhead : (pathOf sch rest1).headI = ((splitNetloc rest1).2).headI :=
        prefix_headI hpath_r2 hp
      rcases hhead2 ht with hz | he
      · exact absurd hz hr2ne
      · have hmem : (pathOf sch rest1).headI ∈ pathOf sch rest1 :=
          headI_mem_self hp
        simp only [isNetlocEnd, Bool.or_eq_true, decide_eq_true_eq] at he
        rw [hhead]
        rcases he with (he | he) | he
        · exact he
        · rw [← hhead] at he
          rw [he] at hmem
          exact absurd hmem hnoq
        · rw [← hhead] at he
          rw [he] at hmem
          exact absurd hmem hnoh
  · intro ht
    have heq : (splitNetloc rest1).2 = rest1 := by
      rw [splitNetloc_neg ht]
    rw [heq] at hpath_r2
    exact hpath_r2

lemma splitScheme_fst_facts (u : Str) :
    (splitScheme u).1 = [] ∨ ((splitScheme u).1 ≠ [] ∧
      ((splitScheme u).1).headI.isAlpha = true ∧
      ((splitScheme u).1).all isSchemeChar = true ∧
      lowerStr (splitScheme u).1 = (splitScheme u).1) := by
  by_cases hsp : schemeSplits u
  · rw [splitScheme_pos hsp]
    refine Or.inr ⟨?_, ?_, ?_, ?_⟩
    · simp only []
      rw [Ne, lowerStr_eq_nil_iff]
      exact hsp.2.1
    · simp only []
      rw [headI_lowerStr hsp.2.1]
      exact char_isAlpha_toLower _ hsp.2.2.1
    · exact all_isSchemeChar_lowerStr hsp.2.2.2
    · exact lowerStr_idem _
  · rw [splitScheme_neg hsp]
    exact Or.inl rfl

lemma splitScheme_snd_mem (u : Str) : ∀ c ∈ (splitScheme u).2, c ∈ u := by
  by_cases hsp : schemeSplits u
  · rw [splitScheme_pos hsp]
    intro c hc
    exact (List.dropWhile_sublist _).mem ((List.tail_sublist _).mem hc)
  · rw [splitScheme_neg hsp]
    intro c hc
    exact hc

lemma splitScheme_fst_nil {u : Str} (h : (splitScheme u).1 = []) :
    splitScheme u = ([], u) := by
  by_cases hsp : schemeSplits u
  · rw [splitScheme_pos hsp] at h
    exact absurd (lowerStr_eq_nil_iff.mp h) hsp.2.1
  · exact splitScheme_neg hsp

lemma take2_ne_of_headI {p : Str} (hne : p ≠ []) (h : p.headI ≠ '/') :
    p.take 2 ≠ ['/', '/'] := by
  cases p with
  | nil => exact absurd rfl hne
  | cons a l =>
      intro he
      cases l with
      | nil => simp at he
      | cons b t =>
          simp only [List.take] at he
          injection he with h1 _
          exact h (by rw [← h1]; rfl)

lemma canonicalize_unfold (x : Str) :
    canonicalize_url x = urlunsplit (urlparse x).scheme (urlparse x).netloc
      (canonicalPath (urlparse x).path) [] [] := rfl

lemma take2_slash_cons_ne {p : Str} (hpne : p ≠ []) (hph : p.headI ≠ '/') :
    (('/' : Char) :: p).take 2 ≠ ['/', '/'] := by
  cases p with
  | nil => exact absurd rfl hpne
  | cons a l =>
      simp only [List.take]
      intro he
      injection he with _ h2
      injection h2 with h3 _
      exact hph (by rw [← h3]; rfl)

lemma urlunsplit_slash_cons (s p : Str) (hpne : p ≠ []) (hph : p.headI ≠ '/')
    (hs0 : s ≠ []) (hsu : s ∈ usesNetloc) :
    urlunsplit s [] ('/' :: p) [] [] = urlunsplit s [] p [] [] := by
  unfold urlunsplit
  simp only []
  rw [if_pos (show ([] : Str) ≠ [] ∨ (s ≠ [] ∧ s ∈ usesNetloc ∧
      (('/' : Char) :: p).take 2 ≠ ['/', '/'])
    from Or.inr ⟨hs0, hsu, take2_slash_cons_ne hpne hph⟩)]
  rw [if_pos (show ([] : Str) ≠ [] ∨ (s ≠ [] ∧ s ∈ usesNetloc ∧
      p.take 2 ≠ ['/', '/'])
    from Or.inr ⟨hs0, hsu, take2_ne_of_headI hpne hph⟩)]
  rw [if_neg (show ¬ ((('/' : Char) :: p) ≠ [] ∧ (('/' : Char) :: p).headI ≠ '/')
    from fun hx => hx.2 rfl)]
  rw [if_pos (show p ≠ [] ∧ p.headI ≠ '/' from ⟨hpne, hph⟩)]

/-- Parsing a canonical url (outside the degenerate double-slash-path case)
returns the original scheme and netloc and the canonical path, except that a
relative canonical path under a netloc-using scheme gains a leading slash. -/
lemma canonical_parse_of (x : Str)
    (H : (urlparse x).netloc ≠ [] ∨
      (canonicalPath (urlparse x).path).take 2 ≠ ['/', '/']) :
    urlparse (canonicalize_url x) =
      ⟨(urlparse x).scheme, (urlparse x).netloc,
        if (urlparse x).netloc = [] ∧ (urlparse x).scheme ≠ [] ∧
            (urlparse x).scheme ∈ usesNetloc ∧
            (canonicalPath (urlparse x).path).headI ≠ '/'
          then '/' :: canonicalPath (urlparse x).path
          else canonicalPath (urlparse x).path,
        [], [], []⟩ := by
  have hfacts := netloc_path_facts (splitScheme (sanitizeUrl x)).1
    (splitScheme (sanitizeUrl x)).2
  obtain ⟨hF2, hFnm, hFpm, hFh, hFq, hF6, hF7⟩ := hfacts
  have hrest_mem := splitScheme_snd_mem (sanitizeUrl x)
  have hp0h : '#' ∉ (urlparse x).path := by rw [urlparse_path]; exact hFh
  have hp0q : '?' ∉ (urlparse x).path := by rw [urlparse_path]; exact hFq
  have hp0m : ∀ c ∈ (urlparse x).path, c ∈ sanitizeUrl x := by
    rw [urlparse_path]
    intro c hc
    exact hrest_mem c (hFpm c hc)
  have HS := splitScheme_fst_facts (sanitizeUrl x)
  rw [← urlparse_scheme] at HS
  have HN : ∀ c ∈ (urlparse x).netloc, isNetlocEnd c = false := by
    rw [urlparse_netloc]
    exact hF2
  have HNsafe : ∀ c ∈ (urlparse x).netloc, isUnsafeUrlByte c = false := by
    rw [urlparse_netloc]
    intro c hc
    exact mem_sanitize_safe (hrest_mem c (hFnm c hc))
  have HPsafe : ∀ c ∈ canonicalPath (urlparse x).path,
      isUnsafeUrlByte c = false := by
    intro c hc
    rcases canonicalPath_mem hc with hc | rfl
    · exact mem_sanitize_safe (hp0m c hc)
    · decide
  have HPh : '#' ∉ canonicalPath (urlparse x).path := by
    intro hc
    rcases canonicalPath_mem hc with hc | hc
    · exact hp0h hc
    · exact absurd hc (by decide)
  have HPq : '?' ∉ canonicalPath (urlparse x).path := by
    intro hc
    rcases canonicalPath_mem hc with hc | hc
    · exact hp0q hc
    · exact absurd hc (by decide)
  have HPl := canonicalPath_last (urlparse x).path
  have hheadI_of_p0 : ((urlparse x).path = [] ∨ (urlparse x).path.headI = '/') →
      (canonicalPath (urlparse x).path).headI = '/' := by
    intro hc
    rcases canonicalPath_headI (urlparse x).path with ⟨hz, he⟩ | ⟨hz, he⟩
    · rw [he]
      rfl
    · rcases hc with hc | hc
      · exact absurd hc hz
      · rw [he, hc]
  have HNP : (urlparse x).netloc ≠ [] →
      (canonicalPath (urlparse x).path).headI = '/' := by
    intro hn
    by_cases htb : ((splitScheme (sanitizeUrl x)).2).take 2 = ['/', '/']
    · exact hheadI_of_p0 (by rw [urlparse_path]; exact hF6 htb)
    · exfalso
      apply hn
      rw [urlparse_netloc, splitNetloc_neg htb]
  have HnoS : (urlparse x).scheme = [] → (urlparse x).netloc = [] →
      (canonicalPath (urlparse x).path).take 2 ≠ ['/', '/'] →
      ¬ schemeSplits (canonicalPath (urlparse x).path) := by
    intro hs hn _
    have hssu : splitScheme (sanitizeUrl x) = ([], sanitizeUrl x) := by
      apply splitScheme_fst_nil
      rw [← urlparse_scheme]
      exact hs
    have hnsu : ¬ schemeSplits (sanitizeUrl x) := not_schemeSplits_of_eq hssu
    by_cases htb : ((splitScheme (sanitizeUrl x)).2).take 2 = ['/', '/']
    · have hh := hheadI_of_p0 (by rw [urlparse_path]; exact hF6 htb)
      apply not_schemeSplits_headI
      rw [hh]
      decide
    · have hpre : (urlparse x).path <+: sanitizeUrl x := by
        have h7 := hF7 htb
        rw [hssu] at h7
        rw [urlparse_path, hssu]
        exact h7
      obtain ⟨t, ht, hc | hc⟩ := canonicalPath_shape (urlparse x).path
      · rw [hc]
        exact (not_schemeSplits_pref hnsu (ht.trans hpre)).1
      · rw [hc]
        exact (not_schemeSplits_pref hnsu (ht.trans hpre)).2
  have HheadP : (urlparse x).scheme = [] → (urlparse x).netloc = [] →
      isC0OrSpace (canonicalPath (urlparse x).path).headI = false := by
    intro hs hn
    have hssu : splitScheme (sanitizeUrl x) = ([], sanitizeUrl x) := by
      apply splitScheme_fst_nil
      rw [← urlparse_scheme]
      exact hs
    by_cases htb : ((splitScheme (sanitizeUrl x)).2).take 2 = ['/', '/']
    · rw [hheadI_of_p0 (by rw [urlparse_path]; exact hF6 htb)]
      decide
    · rcases canonicalPath_headI (urlparse x).path with ⟨hz, he⟩ | ⟨hz, he⟩
      · rw [he]
        decide
      · rw [he]
        have hpre : (urlparse x).path <+: sanitizeUrl x := by
          have h7 := hF7 htb
          rw [hssu] at h7
          rw [urlparse_path, hssu]
          exact h7
        rw [prefix_headI hpre hz]
        apply sanitize_headI_not_C0
        intro hu
        rw [hu] at hpre
        exact hz (List.prefix_nil.mp hpre)
  have hparse := parse_unsplit_canonical (urlparse x).scheme (urlparse x).netloc
    (canonicalPath (urlparse x).path) HS HN HNsafe HPsafe HPh HPq HPl HNP
    HnoS HheadP H
  rw [canonicalize_unfold x]
  exact hparse

/-- Conditional idempotence of canonicalize_url: it is idempotent on every
url whose parsed netloc is nonempty, or whose canonical path does not begin
with a double slash. -/
lemma canonicalize_idem_of (x : Str)
    (H : (urlparse x).netloc ≠ [] ∨
      (canonicalPath (urlparse x).path).take 2 ≠ ['/', '/']) :
    canonicalize_url (canonicalize_url x) = canonicalize_url x := by
  have hparse := canonical_parse_of x H
  have hpne : canonicalPath (urlparse x).path ≠ [] :=
    canonicalPath_ne (urlparse x).path
  have HPl := canonicalPath_last (urlparse x).path
  conv_lhs => rw [canonicalize_unfold (canonicalize_url x)]
  rw [hparse]
  simp only []
  conv_rhs => rw [canonicalize_unfold x]
  by_cases hcnd : (urlparse x).netloc = [] ∧ (urlparse x).scheme ≠ [] ∧
      (urlparse x).scheme ∈ usesNetloc ∧
      (canonicalPath (urlparse x).path).headI ≠ '/'
  · rw [if_pos hcnd]
    have hlast : (('/' : Char) :: canonicalPath (urlparse x).path).getLast? =
        some '/' := by
      rw [getLast?_cons_of_ne hpne]
      exact HPl
    rw [canonicalPath_of_last hlast]
    rw [hcnd.1]
    exact urlunsplit_slash_cons _ _ hpne hcnd.2.2.2 hcnd.2.1 hcnd.2.2.1
  · rw [if_neg hcnd]
    rw [canonicalPath_of_last HPl]

lemma suffix_getLast? {s l : Str} (h : s <:+ l) (hs : s ≠ []) :
    l.getLast? = s.getLast? := by
  obtain ⟨t, rfl⟩ := h
  rw [List.getLast?_append]
  cases hg : s.getLast? with
  | none =>
      rw [List.getLast?_eq_none_iff] at hg
      exact absurd hg hs
  | some c => rfl

lemma canonical_HS (x : Str) :
    (urlparse x).scheme = [] ∨ ((urlparse x).scheme ≠ [] ∧
      ((urlparse x).scheme).headI.isAlpha = true ∧
      ((urlparse x).scheme).all isSchemeChar = true ∧
      lowerStr (urlparse x).scheme = (urlparse x).scheme) := by
  have h := splitScheme_fst_facts (sanitizeUrl x)
  rw [← urlparse_scheme] at h
  exact h

lemma canonical_path_safe (x : Str) :
    ∀ c ∈ canonicalPath (urlparse x).path, isUnsafeUrlByte c = false := by
  intro c hc
  rcases canonicalPath_mem hc with hc | rfl
  · have h := (netloc_path_facts (splitScheme (sanitizeUrl x)).1
      (splitScheme (sanitizeUrl x)).2).2.2.1
    rw [← urlparse_path] at h
    exact mem_sanitize_safe (splitScheme_snd_mem (sanitizeUrl x) c (h c hc))
  · decide

lemma canonical_path_noHash (x : Str) :
    '#' ∉ canonicalPath (urlparse x).path := by
  intro hc
  rcases canonicalPath_mem hc with hc | hc
  · have h := (netloc_path_facts (splitScheme (sanitizeUrl x)).1
      (splitScheme (sanitizeUrl x)).2).2.2.2.1
    rw [← urlparse_path] at h
    exact h hc
  · exact absurd hc (by decide)

lemma canonical_path_noQ (x : Str) :
    '?' ∉ canonicalPath (urlparse x).path := by
  intro hc
  rcases canonicalPath_mem hc with hc | hc
  · have h := (netloc_path_facts (splitScheme (sanitizeUrl x)).1
      (splitScheme (sanitizeUrl x)).2).2.2.2.2.1
    rw [← urlparse_path] at h
    exact h hc
  · exact absurd hc (by decide)

/-- Every canonical url ends in a slash as a string. -/
lemma canonicalize_ends_slash (x : Str) :
    (canonicalize_url x).getLast? = some '/' := by
  rw [canonicalize_unfold]
  have hp := canonicalPath_last (urlparse x).path
  have hpne := canonicalPath_ne (urlparse x).path
  unfold urlunsplit
  simp only []
  rw [if_neg (show ¬ (([] : Str) ≠ []) by simp)]
  rw [if_neg (show ¬ (([] : Str) ≠ []) by simp)]
  have hstep : ∀ u1 : Str, u1.getLast? = some '/' →
      (if (urlparse x).scheme ≠ []
        then (urlparse x).scheme ++ ':' :: u1 else u1).getLast? = some '/' := by
    intro u1 h1
    split
    · have : (urlparse x).scheme ++ ':' :: u1 = ((urlparse x).scheme ++ [':']) ++ u1 := by
        simp
      rw [this, List.getLast?_append, h1]
      rfl
    · exact h1
  apply hstep
  split
  · rw [List.getLast?_append]
    have hinner : (if canonicalPath (urlparse x).path ≠ [] ∧
        (canonicalPath (urlparse x).path).headI ≠ '/'
        then '/' :: canonicalPath (urlparse x).path
        else canonicalPath (urlparse x).path).getLast? = some '/' := by
      split
      · rw [getLast?_cons_of_ne hpne]
        exact hp
      · exact hp
    rw [hinner]
    rfl
  · exact hp

/-- Parsing a reassembled canonical url in the degenerate case where the
netloc is empty and the canonical path itself begins with a double slash:
the path is re-split into a netloc and a remainder. -/
lemma parse_unsplit_noHOK (s rest : Str)
    (HS : s = [] ∨ (s ≠ [] ∧ s.headI.isAlpha = true ∧
      s.all isSchemeChar = true ∧ lowerStr s = s))
    (HPsafe : ∀ x ∈ ('/' :: '/' :: rest : Str), isUnsafeUrlByte x = false)
    (HPh : '#' ∉ ('/' :: '/' :: rest : Str))
    (HPq : '?' ∉ ('/' :: '/' :: rest : Str))
    (HPl : ('/' :: '/' :: rest : Str).getLast? = some '/') :
    urlparse (urlunsplit s [] ('/' :: '/' :: rest) [] []) =
      ⟨s, rest.takeWhile (fun c => ¬ isNetlocEnd c),
        rest.dropWhile (fun c => ¬ isNetlocEnd c), [], [], []⟩ := by
  have hu1 : urlunsplit s [] ('/' :: '/' :: rest) [] [] =
      (if s ≠ [] then s ++ ':' :: ('/' :: '/' :: rest) else '/' :: '/' :: rest) := by
    unfold urlunsplit
    simp only []
    rw [if_neg (show ¬ ((([] : Str) ≠ []) ∨ (s ≠ [] ∧ s ∈ usesNetloc ∧
        (('/' : Char) :: '/' :: rest).take 2 ≠ ['/', '/'])) from by
      rintro (hz | ⟨_, _, hz⟩)
      · exact hz rfl
      · exact hz rfl)]
    rw [if_neg (by simp), if_neg (by simp)]
  have hscheme : splitScheme (sanitizeUrl (urlunsplit s [] ('/' :: '/' :: rest) [] [])) =
      (s, '/' :: '/' :: rest) := by
    rcases HS with rfl | ⟨hs1, hs2, hs3, hs4⟩
    · rw [hu1, if_neg (by simp)]
      rw [sanitizeUrl_eq_self HPsafe
        (Or.inr (show isC0OrSpace '/' = false by decide))]
      exact splitScheme_neg
        (not_schemeSplits_headI (show Char.isAlpha '/' = false by decide))
    · rw [hu1, if_pos hs1]
      have hsafe_all : ∀ x ∈ s ++ ':' :: ('/' :: '/' :: rest),
          isUnsafeUrlByte x = false := by
        intro x hx
        rcases List.mem_append.mp hx with hx | hx
        · exact isSchemeChar_not_unsafe (List.all_eq_true.mp hs3 x hx)
        · rcases List.mem_cons.mp hx with rfl | hx
          · decide
          · exact HPsafe x hx
      have hhead : (s ++ ':' :: ('/' :: '/' :: rest)).headI = s.headI := by
        cases s with
        | nil => exact absurd rfl hs1
        | cons a l => rfl
      rw [sanitizeUrl_eq_self hsafe_all
        (Or.inr (by rw [hhead]; exact char_isAlpha_not_C0 hs2))]
      rw [splitScheme_valid s _ hs1 hs2 hs3, hs4]
  have hnet : splitNetloc ('/' :: '/' :: rest) =
      (rest.takeWhile (fun c => ¬ isNetlocEnd c),
       rest.dropWhile (fun c => ¬ isNetlocEnd c)) := by
    rw [splitNetloc_take2 (by simp)]
    rfl
  have hd2mem : ∀ c ∈ rest.dropWhile (fun c => ¬ isNetlocEnd c),
      c ∈ ('/' :: '/' :: rest : Str) := by
    intro c hc
    have : c ∈ rest := (List.dropWhile_sublist _).mem hc
    simp [this]
  have hdh : '#' ∉ rest.dropWhile (fun c => ¬ isNetlocEnd c) := by
    intro hc
    exact HPh (hd2mem _ hc)
  have hdq : '?' ∉ rest.dropWhile (fun c => ¬ isNetlocEnd c) := by
    intro hc
    exact HPq (hd2mem _ hc)
  have hdl : rest.dropWhile (fun c => ¬ isNetlocEnd c) = [] ∨
      (rest.dropWhile (fun c => ¬ isNetlocEnd c)).getLast? = some '/' := by
    cases hd : rest.dropWhile (fun c => ¬ isNetlocEnd c) with
    | nil => exact Or.inl rfl
    | cons a t =>
        refine Or.inr ?_
        have hne : rest.dropWhile (fun c => ¬ isNetlocEnd c) ≠ [] := by
          rw [hd]
          simp
        have hrne : rest ≠ [] := by
          intro hz
          rw [hz] at hd
          simp at hd
        rw [← hd]
        rw [← suffix_getLast? (List.dropWhile_suffix _) hne]
        have : ('/' :: '/' :: rest : Str).getLast? = rest.getLast? := by
          have h1 : ('/' :: '/' :: rest : Str) = ['/', '/'] ++ rest := rfl
          rw [h1, List.getLast?_append]
          cases hg : rest.getLast? with
          | none =>
              rw [List.getLast?_eq_none_iff] at hg
              exact absurd hg hrne
          | some c => rfl
        rw [← this]
        exact HPl
  have hts : (splitOnFirst '#' (rest.dropWhile (fun c => ¬ isNetlocEnd c))).1 =
        rest.dropWhile (fun c => ¬ isNetlocEnd c) ∧
      (splitOnFirst '#' (rest.dropWhile (fun c => ¬ isNetlocEnd c))).2 = [] :=
    ⟨by rw [splitOnFirst_not_mem hdh], by rw [splitOnFirst_not_mem hdh]⟩
  have hts2 : (splitOnFirst '?' (rest.dropWhile (fun c => ¬ isNetlocEnd c))).1 =
        rest.dropWhile (fun c => ¬ isNetlocEnd c) ∧
      (splitOnFirst '?' (rest.dropWhile (fun c => ¬ isNetlocEnd c))).2 = [] :=
    ⟨by rw [splitOnFirst_not_mem hdq], by rw [splitOnFirst_not_mem hdq]⟩
  have hpar : (if s ∈ usesParams ∧
      (rest.dropWhile (fun c => ¬ isNetlocEnd c)).contains ';' = true
      then splitparams (rest.dropWhile (fun c => ¬ isNetlocEnd c))
      else (rest.dropWhile (fun c => ¬ isNetlocEnd c), [])) =
      (rest.dropWhile (fun c => ¬ isNetlocEnd c), []) := by
    split
    · rcases hdl with hz | hz
      · next hcon =>
          rw [hz] at hcon
          simp at hcon
      · exact splitparams_last_slash hz
    · rfl
  unfold urlparse
  simp only [hscheme, hnet, hts.1, hts.2, hts2.1, hts2.2, hpar]

lemma take2_shape {l : Str} (h : l.take 2 = ['/', '/']) :
    ∃ rest, l = '/' :: '/' :: rest := by
  cases l with
  | nil => simp at h
  | cons a t =>
      cases t with
      | nil => simp at h
      | cons b t2 =>
          simp only [List.take, List.take_zero] at h
          injection h with h1 h2
          injection h2 with h3 _
          exact ⟨t2, by rw [h1, h3]⟩

/-- The parse of a canonical url in the degenerate case: the canonical path
begins with a double slash under an empty netloc, and is re-split. -/
lemma canonical_parse_noHOK (x : Str) (rest : Str)
    (hn : (urlparse x).netloc = [])
    (hshape : canonicalPath (urlparse x).path = '/' :: '/' :: rest) :
    urlparse (canonicalize_url x) =
      ⟨(urlparse x).scheme, rest.takeWhile (fun c => ¬ isNetlocEnd c),
        rest.dropWhile (fun c => ¬ isNetlocEnd c), [], [], []⟩ := by
  have HS := canonical_HS x
  have HPsafe := canonical_path_safe x
  have HPh := canonical_path_noHash x
  have HPq := canonical_path_noQ x
  have HPl := canonicalPath_last (urlparse x).path
  rw [hshape] at HPsafe HPh HPq HPl
  rw [canonicalize_unfold x, hn, hshape]
  exact parse_unsplit_noHOK (urlparse x).scheme rest HS HPsafe HPh HPq HPl

/-- The parsed path of a canonical url is empty or ends in a slash; in
particular it never ends in a file extension. -/
lemma canonical_parsed_path (x : Str) :
    (urlparse (canonicalize_url x)).path = [] ∨
    (urlparse (canonicalize_url x)).path.getLast? = some '/' := by
  by_cases H : (urlparse x).netloc ≠ [] ∨
      (canonicalPath (urlparse x).path).take 2 ≠ ['/', '/']
  · rw [canonical_parse_of x H]
    simp only []
    have HPl := canonicalPath_last (urlparse x).path
    have hpne := canonicalPath_ne (urlparse x).path
    split
    · refine Or.inr ?_
      rw [getLast?_cons_of_ne hpne]
      exact HPl
    · exact Or.inr HPl
  · push_neg at H
    obtain ⟨hn, h2⟩ := H
    obtain ⟨rest, hshape⟩ := take2_shape h2
    rw [canonical_parse_noHOK x rest hn hshape]
    simp only []
    cases hd : rest.dropWhile (fun c => ¬ isNetlocEnd c) with
    | nil => exact Or.inl rfl
    | cons a t =>
        refine Or.inr ?_
        rw [← hd]
        have hne : rest.dropWhile (fun c => ¬ isNetlocEnd c) ≠ [] := by
          rw [hd]
          simp
        have hrne : rest ≠ [] := by
          intro hz
          rw [hz] at hd
          simp at hd
        rw [← suffix_getLast? (List.dropWhile_suffix _) hne]
        have HPl := canonicalPath_last (urlparse x).path
        rw [hshape] at HPl
        have hq : ('/' :: '/' :: rest : Str).getLast? = rest.getLast? := by
          have h1 : ('/' :: '/' :: rest : Str) = ['/', '/'] ++ rest := rfl
          rw [h1, List.getLast?_append]
          cases hg : rest.getLast? with
          | none =>
              rw [List.getLast?_eq_none_iff] at hg
              exact absurd hg hrne
          | some c => rfl
        rw [← hq]
        exact HPl

/-- A canonical url whose parse has a nonempty netloc is a fixed point of
canonicalize_url. -/
lemma canon_fix_of_netloc (x : Str)
    (h : (urlparse (canonicalize_url x)).netloc ≠ []) :
    canonicalize_url (canonicalize_url x) = canonicalize_url x := by
  by_cases H : (urlparse x).netloc ≠ [] ∨
      (canonicalPath (urlparse x).path).take 2 ≠ ['/', '/']
  · exact canonicalize_idem_of x H
  · push_neg at H
    obtain ⟨hn, h2⟩ := H
    obtain ⟨rest, hshape⟩ := take2_shape h2
    have hparse := canonical_parse_noHOK x rest hn hshape
    rw [hparse] at h
    simp only [] at h
    have hrne : rest ≠ [] := by
      intro hz
      rw [hz] at h
      exact h rfl
    have HPl := canonicalPath_last (urlparse x).path
    rw [hshape] at HPl
    have hrl : rest.getLast? = some '/' := by
      have hq : ('/' :: '/' :: rest : Str).getLast? = rest.getLast? := by
        have h1 : ('/' :: '/' :: rest : Str) = ['/', '/'] ++ rest := rfl
        rw [h1, List.getLast?_append]
        cases hg : rest.getLast? with
        | none =>
            rw [List.getLast?_eq_none_iff] at hg
            exact absurd hg hrne
        | some c => rfl
      rw [← hq]
      exact HPl
    have hp2ne : rest.dropWhile (fun c => ¬ isNetlocEnd c) ≠ [] := by
      intro hz
      rw [List.dropWhile_eq_nil_iff] at hz
      have hm : '/' ∈ rest := List.mem_of_mem_getLast? hrl
      have := hz '/' hm
      simp [isNetlocEnd] at this
    have HPq := canonical_path_noQ x
    have HPh := canonical_path_noHash x
    rw [hshape] at HPq HPh
    have hp2head : (rest.dropWhile (fun c => ¬ isNetlocEnd c)).headI = '/' := by
      have hf := headI_dropWhile_false hp2ne
      have hval : isNetlocEnd ((rest.dropWhile (fun c => ¬ isNetlocEnd c)).headI) =
          true := by
        cases hb : isNetlocEnd ((rest.dropWhile (fun c => ¬ isNetlocEnd c)).headI)
        · rw [hb] at hf
          simp at hf
        · rfl
      have hmem : (rest.dropWhile (fun c => ¬ isNetlocEnd c)).headI ∈
          ('/' :: '/' :: rest : Str) := by
        have h1 := headI_mem_self hp2ne
        have h2 := (List.dropWhile_sublist
          (fun c => ¬ isNetlocEnd c) (l := rest)).mem h1
        exact List.mem_cons_of_mem _ (List.mem_cons_of_mem _ h2)
      set c0 := (rest.dropWhile (fun c => ¬ isNetlocEnd c)).headI with hc0
      simp only [isNetlocEnd, Bool.or_eq_true, decide_eq_true_eq] at hval
      rcases hval with (hval | hval) | hval
      · exact hval
      · rw [hval] at hmem
        exact absurd hmem HPq
      · rw [hval] at hmem
        exact absurd hmem HPh
    have hp2l : (rest.dropWhile (fun c => ¬ isNetlocEnd c)).getLast? =
        some '/' := by
      rw [← suffix_getLast? (List.dropWhile_suffix _) hp2ne]
      exact hrl
    rw [canonicalize_unfold (canonicalize_url x), hparse]
    simp only []
    rw [canonicalPath_of_last hp2l]
    conv_rhs => rw [canonicalize_unfold x, hn, hshape]
    unfold urlunsplit
    simp only []
    rw [if_pos (show (rest.takeWhile (fun c => ¬ isNetlocEnd c)) ≠ [] ∨
        ((urlparse x).scheme ≠ [] ∧ (urlparse x).scheme ∈ usesNetloc ∧
         (rest.dropWhile (fun c => ¬ isNetlocEnd c)).take 2 ≠ ['/', '/'])
      from Or.inl h)]
    rw [if_neg (show ¬ ((rest.dropWhile (fun c => ¬ isNetlocEnd c)) ≠ [] ∧
        (rest.dropWhile (fun c => ¬ isNetlocEnd c)).headI ≠ '/')
      from fun hx => hx.2 hp2head)]
    rw [if_neg (show ¬ ((([] : Str) ≠ []) ∨ ((urlparse x).scheme ≠ [] ∧
        (urlparse x).scheme ∈ usesNetloc ∧
        (('/' : Char) :: '/' :: rest).take 2 ≠ ['/', '/'])) from by
      rintro (hz | ⟨_, _, hz⟩)
      · exact hz rfl
      · exact hz rfl)]
    have hjoin : (('/' : Char) :: '/' :: rest.takeWhile (fun c => ¬ isNetlocEnd c))
        ++ rest.dropWhile (fun c => ¬ isNetlocEnd c) = '/' :: '/' :: rest := by
      rw [List.cons_append, List.cons_append, List.takeWhile_append_dropWhile]
    rw [hjoin]

/-! Embedding of the crawler (src/sitemapCrawler.py). -/

def MAX_PAGES : Nat := 3000

def TARGET_DOMAIN : Str := str "global.honda"

/-- The constant TARGET_PATH_PREFIX of the source (line 31). -/
def TARGET_PATH_PREF : Str := str "/jp/philanthropy/ideacontest/"

/-- EXCLUDE_EXTENSIONS (source lines 34-38); .pdf is deliberately absent. -/
def EXCLUDE_EXTENSIONS : List Str :=
  [".png", ".jpg", ".jpeg", ".gif", ".zip", ".doc", ".docx", ".xls",
   ".xlsx", ".js", ".css"].map str

def START_URLS : List Str :=
  [str "https://global.honda/jp/philanthropy/ideacontest/"]

def NO_TITLE : Str := str "No Title"

def NO_DESCRIPTION : Str := str "No Description"

def NO_PDF_TITLE : Str := str "No PDF Title"

def NO_DESC_PDF : Str := str "No Description (PDF)"

def PDF_EXT : Str := str ".pdf"

/-- What the program reads from a parsed HTML page: the stripped text of the
first title element (none when there is no title element), the content
attributes of the description and og:description meta tags (none when the
tag is missing), and the href attributes of the anchors in document order. -/
structure Html where
  titleTxt : Option Str
  descName : Option Str
  descOg : Option Str
  hrefs : List Str
deriving DecidableEq

/-- Embedding of extract_title_from_html (lines 169-174). -/
def extract_title_from_html (html : Html) : Str :=
  match html.titleTxt with
  | some t => if t = [] then NO_TITLE else t
  | none => NO_TITLE

/-- The og:description fallback inside extract_description_from_html. -/
def metaFallback (html : Html) : Str :=
  match html.descOg with
  | some c => if c = [] then NO_DESCRIPTION else pyStrip c
  | none => NO_DESCRIPTION

/-- Embedding of extract_description_from_html (lines 176-190): the meta
name=description content when present and nonempty, else og:description,
else the sentinel. -/
def extract_description_from_html (html : Html) : Str :=
  match html.descName with
  | some c => if c = [] then metaFallback html else pyStrip c
  | none => metaFallback html

/-- Pythons set.add, on the duplicate-free list model of a set. -/
def addFound (found : List Str) (u : Str) : List Str :=
  if u ∈ found then found else found ++ [u]

/-- Embedding of extract_links (lines 192-221).  urljoin (an external
urllib function whose details none of the claims depend on) is passed as an
oracle; hrefs are the href attributes of the anchors of the page. -/
def extract_links (urljoin : Str → Str → Str) (current_url : Str)
    (hrefs : List Str) : List Str :=
  hrefs.foldl (fun found href =>
    let abs_url := canonicalize_url (urljoin current_url (pyStrip href))
    let parsed := urlparse abs_url
    if parsed.netloc ≠ TARGET_DOMAIN then found
    else if ¬ (TARGET_PATH_PREF.isPrefixOf parsed.path) then found
    else if EXCLUDE_EXTENSIONS.any
        (fun ext => ext.isSuffixOf (lowerStr parsed.path)) then found
    else addFound found abs_url) []

/-- The observable outcome of downloading and parsing a PDF: a failure
(network error, HTTP error status or parse exception) or the parsed
document metadata dictionary (none when the document has no metadata). -/
inductive PdfOutcome
  | failure
  | parsed (metadata : Option (List (Str × Str)))
deriving DecidableEq

/-- Dictionary lookup, first match wins. -/
def dictLookup (k : Str) : List (Str × Str) → Option Str
  | [] => none
  | (k2, v) :: rest => if k2 = k then some v else dictLookup k rest

/-- Embedding of get_pdf_title (lines 223-245): on failure the sentinel; on
success the trimmed /Title metadata value when the key is present, else the
sentinel.  The function is total: the try/except of the source never lets an
exception escape. -/
def get_pdf_title (outcome : PdfOutcome) : Str :=
  match outcome with
  | .failure => NO_PDF_TITLE
  | .parsed none => NO_PDF_TITLE
  | .parsed (some m) =>
      match dictLookup (str "/Title") m with
      | some v => pyStrip v
      | none => NO_PDF_TITLE

/-- The observable HTTP transport outcome: an exception (timeout, connection
error) or a response with status, content type and decoded body. -/
inductive HttpResult
  | exn
  | ok (status : Nat) (ctype : Str) (body : Str)
deriving DecidableEq

/-- Substring containment, the Python operator in. -/
def containsSub (needle : Str) : Str → Bool
  | [] => needle.isPrefixOf []
  | c :: rest => needle.isPrefixOf (c :: rest) || containsSub needle rest

/-- Embedding of fetch_html (lines 126-167): a cache hit returns the cached
text without touching the network; an exception or an error status
(raise_for_status, caught by the except) yields none; a response whose
content type does not contain text/html yields none; otherwise the decoded
body.  The cache write on success is a side effect outside this value. -/
def fetch_html (cached : Option Str) (resp : HttpResult) : Option Str :=
  match cached with
  | some text => some text
  | none =>
      match resp with
      | .exn => none
      | .ok status ctype body =>
          if 400 ≤ status ∧ status < 600 then none
          else if containsSub (str "text/html") (lowerStr ctype) then some body
          else none

inductive RecType
  | Page
  | PDF
deriving DecidableEq

/-- A row of the new sitemap: (url, title, description, depth, type), as
appended by crawl (lines 281 and 293 and 306). -/
structure DiscoveryRecord where
  url : Str
  title : Str
  desc : Str
  depth : Rat
  type : RecType
deriving DecidableEq

def recTypeStr : RecType → Str
  | .Page => str "Page"
  | .PDF => str "PDF"

inductive SaveMode
  | w
  | a
deriving DecidableEq

def CSV_HEADER : List Str :=
  ["URL", "Title", "Description", "Depth", "Type"].map str

/-- Python csv minimal quoting: a field is quoted when it contains the
delimiter, the quote character or a line break. -/
def csvQuoteNeeded (f : Str) : Bool :=
  f.any (fun c => c = ',' || c = '"' || c = '\r' || c = '\n')

def csvEscape (f : Str) : Str :=
  f.foldr (fun c acc => if c = '"' then '"' :: '"' :: acc else c :: acc) []

def csvField (f : Str) : Str :=
  if csvQuoteNeeded f then '"' :: (csvEscape f ++ ['"']) else f

/-- One csv row with the default writer settings (comma separated, CRLF). -/
def csvRow (fields : List Str) : Str :=
  List.intercalate [','] (fields.map csvField) ++ str "\r\n"

/-- Python str() on the depth floats the crawler produces (integers and
halves; exact in float arithmetic). -/
def formatDepth (d : Rat) : Str :=
  if d.den = 1 then (toString d.num).data ++ str ".0"
  else if d.den = 2 then (toString (d.num / 2)).data ++ str ".5"
  else (toString d.num).data ++ '/' :: (toString d.den).data

def recRow (r : DiscoveryRecord) : Str :=
  csvRow [r.url, r.title, r.desc, formatDepth r.depth, recTypeStr r.type]

/-- Embedding of save_new_sitemap (lines 107-124) at the level of the file
text it leaves behind (the utf-8-sig encoding layer is outside the model):
an empty entry list returns without opening the file; otherwise the header
is written when the file does not exist or the mode is w, and the rows
follow; mode w truncates, mode a appends. -/
def save_new_sitemap (new_entries : List DiscoveryRecord) (file_exists : Bool)
    (old_content : Str) (mode : SaveMode) : Str :=
  if new_entries = [] then old_content
  else
    let write_header := ¬ file_exists ∨ mode = SaveMode.w
    let payload := (if write_header then csvRow CSV_HEADER else []) ++
      (new_entries.map recRow).flatten
    match mode with
    | SaveMode.w => payload
    | SaveMode.a => old_content ++ payload

/-- A logged call of the transport layer: fetch_html on a url, or
get_pdf_title on a url. -/
inductive FetchEvent
  | fetchHtml (url : Str)
  | fetchPdf (url : Str)
deriving DecidableEq

def eventUrl : FetchEvent → Str
  | .fetchHtml u => u
  | .fetchPdf u => u

/-- The oracles of a crawl run: what fetch_html-plus-parsing yields for a
url (none when the fetch fails, is not html, or the body is falsy), what
get_pdf_title returns for a url, and urljoin. -/
structure Env where
  fetch : Str → Option Html
  pdfTitle : Str → Str
  urljoin : Str → Str → Str

/-- The mutable state of the crawl loop; events is the trace of transport
calls made so far. -/
structure CrawlState where
  visited : List Str
  known : List Str
  discovered : List DiscoveryRecord
  queue : List (Str × Rat)
  events : List FetchEvent
deriving DecidableEq

/-- Embedding of the per-child-link body of the crawl loop (lines 298-308):
a child already visited or known is skipped; a child whose lower-cased url
ends in .pdf is resolved eagerly (marked visited and known, its title
fetched, a PDF record appended at depth + 0.5) and never enqueued; any other
child is enqueued at depth + 1. -/
def processChild (env : Env) (depth : Rat) (s : CrawlState) (link : Str) :
    CrawlState :=
  if link ∈ s.visited ∨ link ∈ s.known then s
  else if PDF_EXT.isSuffixOf (lowerStr link) then
    { s with visited := s.visited ++ [link],
             known := s.known ++ [link],
             events := s.events ++ [FetchEvent.fetchPdf link],
             discovered := s.discovered ++
               [⟨link, env.pdfTitle link, NO_DESC_PDF, depth + 1/2,
                 RecType.PDF⟩] }
  else { s with queue := s.queue ++ [(link, depth + 1)] }

lemma processChild_visited_le (env : Env) (depth : Rat) (s : CrawlState)
    (link : Str) :
    s.visited.length ≤ (processChild env depth s link).visited.length := by
  unfold processChild
  split
  · exact Nat.le_refl _
  · split
    · simp
    · exact Nat.le_refl _

lemma foldl_processChild_visited_le (env : Env) (depth : Rat)
    (links : List Str) (s : CrawlState) :
    s.visited.length ≤ (links.foldl (processChild env depth) s).visited.length := by
  induction links generalizing s with
  | nil => exact Nat.le_refl _
  | cons l rest ih =>
      calc s.visited.length ≤ (processChild env depth s l).visited.length :=
        processChild_visited_le env depth s l
        _ ≤ _ := ih (processChild env depth s l)

/-- Embedding of the crawl loop (lines 264-315).  The intermediate save
every 50 visits (lines 311-313) writes the same discovered list that the
state carries and does not change the state, so it is not part of the state
transition. -/
def crawlLoop (env : Env) (s : CrawlState) : CrawlState :=
  match hq : s.queue with
  | [] => s
  | (current, depth) :: rest =>
    if hv : s.visited.length < MAX_PAGES then
      if current ∈ s.visited ∨ current ∈ s.known then
        crawlLoop env { s with queue := rest }
      else if PDF_EXT.isSuffixOf (lowerStr (urlparse current).path) then
        crawlLoop env
          { visited := s.visited ++ [current],
            known := s.known ++ [current],
            discovered := s.discovered ++
              [⟨current, env.pdfTitle current, NO_DESC_PDF, depth,
                RecType.PDF⟩],
            queue := rest,
            events := s.events ++ [FetchEvent.fetchPdf current] }
      else
        match env.fetch current with
        | none =>
          crawlLoop env
            { s with visited := s.visited ++ [current],
                     queue := rest,
                     events := s.events ++ [FetchEvent.fetchHtml current] }
        | some html =>
          let s1 : CrawlState :=
            { visited := s.visited ++ [current],
              known := s.known ++ [current],
              discovered := s.discovered ++
                [⟨current, extract_title_from_html html,
                  extract_description_from_html html, depth, RecType.Page⟩],
              queue := rest,
              events := s.events ++ [FetchEvent.fetchHtml current] }
          crawlLoop env
            ((extract_links env.urljoin current html.hrefs).foldl
              (processChild env depth) s1)
    else s
termination_by (MAX_PAGES - s.visited.length, s.queue.length)
decreasing_by
  · right
    rw [hq]
    simp
  · left
    simp only [List.length_append, List.length_cons, List.length_nil]
    omega
  · left
    simp only [List.length_append, List.length_cons, List.length_nil]
    omega
  · left
    have h1 := foldl_processChild_visited_le env depth
      (extract_links env.urljoin current html.hrefs)
      { visited := s.visited ++ [current],
        known := s.known ++ [current],
        discovered := s.discovered ++
          [⟨current, extract_title_from_html html,
            extract_description_from_html html, depth, RecType.Page⟩],
        queue := rest,
        events := s.events ++ [FetchEvent.fetchHtml current] }
    simp only [List.length_append, List.length_cons, List.length_nil] at h1
    omega

/-- Embedding of crawl (lines 250-315): seed the queue with the canonical
start urls at depth 1, then run the loop. -/
def crawl (env : Env) (known_urls : List Str) (start_urls : List Str) :
    CrawlState :=
  crawlLoop env
    { visited := [], known := known_urls, discovered := [],
      queue := start_urls.map (fun u => (canonicalize_url u, 1)),
      events := [] }

lemma crawlLoop_nil (env : Env) (s : CrawlState) (h : s.queue = []) :
    crawlLoop env s = s := by
  rw [crawlLoop.eq_def, h]

lemma crawlLoop_stop (env : Env) (s : CrawlState) (current : Str) (depth : Rat)
    (rest : List (Str × Rat)) (hq : s.queue = (current, depth) :: rest)
    (hv : ¬ s.visited.length < MAX_PAGES) :
    crawlLoop env s = s := by
  rw [crawlLoop.eq_def, hq]
  simp only [dif_neg hv]

lemma crawlLoop_skip (env : Env) (s : CrawlState) (current : Str) (depth : Rat)
    (rest : List (Str × Rat)) (hq : s.queue = (current, depth) :: rest)
    (hv : s.visited.length < MAX_PAGES)
    (hmem : current ∈ s.visited ∨ current ∈ s.known) :
    crawlLoop env s = crawlLoop env { s with queue := rest } := by
  rw [crawlLoop.eq_def, hq]
  simp only [dif_pos hv, if_pos hmem]

lemma crawlLoop_pdf (env : Env) (s : CrawlState) (current : Str) (depth : Rat)
    (rest : List (Str × Rat)) (hq : s.queue = (current, depth) :: rest)
    (hv : s.visited.length < MAX_PAGES)
    (hmem : ¬ (current ∈ s.visited ∨ current ∈ s.known))
    (hpdf : PDF_EXT.isSuffixOf (lowerStr (urlparse current).path) = true) :
    crawlLoop env s = crawlLoop env
      { visited := s.visited ++ [current],
        known := s.known ++ [current],
        discovered := s.discovered ++
          [⟨current, env.pdfTitle current, NO_DESC_PDF, depth, RecType.PDF⟩],
        queue := rest,
        events := s.events ++ [FetchEvent.fetchPdf current] } := by
  rw [crawlLoop.eq_def, hq]
  simp only [dif_pos hv, if_neg hmem, if_pos hpdf]

lemma crawlLoop_fail (env : Env) (s : CrawlState) (current : Str) (depth : Rat)
    (rest : List (Str × Rat)) (hq : s.queue = (current, depth) :: rest)
    (hv : s.visited.length < MAX_PAGES)
    (hmem : ¬ (current ∈ s.visited ∨ current ∈ s.known))
    (hpdf : ¬ PDF_EXT.isSuffixOf (lowerStr (urlparse current).path) = true)
    (hfetch : env.fetch current = none) :
    crawlLoop env s = crawlLoop env
      { s with visited := s.visited ++ [current],
               queue := rest,
               events := s.events ++ [FetchEvent.fetchHtml current] } := by
  rw [crawlLoop.eq_def, hq]
  simp only [dif_pos hv, if_neg hmem, if_neg hpdf, hfetch]

lemma crawlLoop_page (env : Env) (s : CrawlState) (current : Str) (depth : Rat)
    (rest : List (Str × Rat)) (html : Html)
    (hq : s.queue = (current, depth) :: rest)
    (hv : s.visited.length < MAX_PAGES)
    (hmem : ¬ (current ∈ s.visited ∨ current ∈ s.known))
    (hpdf : ¬ PDF_EXT.isSuffixOf (lowerStr (urlparse current).path) = true)
    (hfetch : env.fetch current = some html) :
    crawlLoop env s = crawlLoop env
      ((extract_links env.urljoin current html.hrefs).foldl
        (processChild env depth)
        { visited := s.visited ++ [current],
          known := s.known ++ [current],
          discovered := s.discovered ++
            [⟨current, extract_title_from_html html,
              extract_description_from_html html, depth, RecType.Page⟩],
          queue := rest,
          events := s.events ++ [FetchEvent.fetchHtml current] }) := by
  rw [crawlLoop.eq_def, hq]
  simp only [dif_pos hv, if_neg hmem, if_neg hpdf, hfetch]

/-- The per-run facts that claim C4 needs, as a state predicate: the url u
is in the known set, no discovered record carries it, and no transport call
touched it. -/
def AvoidsU (u : Str) (s : CrawlState) : Prop :=
  u ∈ s.known ∧ (∀ r ∈ s.discovered, r.url ≠ u) ∧
    (∀ e ∈ s.events, eventUrl e ≠ u)

lemma processChild_avoids {u : Str} (env : Env) (depth : Rat)
    (s : CrawlState) (link : Str) (h : AvoidsU u s) :
    AvoidsU u (processChild env depth s link) := by
  obtain ⟨h1, h2, h3⟩ := h
  unfold processChild
  split
  · exact ⟨h1, h2, h3⟩
  · next hmem =>
      split
      · refine ⟨List.mem_append_left _ h1, ?_, ?_⟩
        · intro r hr
          rcases List.mem_append.mp hr with hr | hr
          · exact h2 r hr
          · simp only [List.mem_singleton] at hr
            subst hr
            intro he
            have he2 : link = u := he
            apply hmem
            right
            rw [he2]
            exact h1
        · intro e he
          rcases List.mem_append.mp he with he | he
          · exact h3 e he
          · simp only [List.mem_singleton] at he
            subst he
            intro he2
            have he3 : link = u := he2
            apply hmem
            right
            rw [he3]
            exact h1
      · exact ⟨h1, h2, h3⟩

lemma foldl_processChild_avoids {u : Str} (env : Env) (depth : Rat)
    (links : List Str) (s : CrawlState) (h : AvoidsU u s) :
    AvoidsU u (links.foldl (processChild env depth) s) := by
  induction links generalizing s with
  | nil => exact h
  | cons l rest ih => exact ih _ (processChild_avoids env depth s l h)

lemma crawlLoop_avoids {u : Str} (env : Env) (s : CrawlState)
    (h : AvoidsU u s) : AvoidsU u (crawlLoop env s) := by
  induction s using crawlLoop.induct env with
  | case1 x hq =>
      rw [crawlLoop_nil env x hq]
      exact h
  | case2 x current depth rest hq hv hmem ih =>
      rw [crawlLoop_skip env x current depth rest hq hv hmem]
      exact ih ⟨h.1, h.2.1, h.2.2⟩
  | case3 x current depth rest hq hv hmem hpdf ih =>
      rw [crawlLoop_pdf env x current depth rest hq hv hmem hpdf]
      apply ih
      obtain ⟨h1, h2, h3⟩ := h
      refine ⟨List.mem_append_left _ h1, ?_, ?_⟩
      · intro r hr
        rcases List.mem_append.mp hr with hr | hr
        · exact h2 r hr
        · simp only [List.mem_singleton] at hr
          subst hr
          intro he
          have he2 : current = u := he
          apply hmem
          right
          rw [he2]
          exact h1
      · intro e he
        rcases List.mem_append.mp he with he | he
        · exact h3 e he
        · simp only [List.mem_singleton] at he
          subst he
          intro he2
          have he3 : current = u := he2
          apply hmem
          right
          rw [he3]
          exact h1
  | case4 x current depth rest hq hv hmem hpdf hfetch ih =>
      rw [crawlLoop_fail env x current depth rest hq hv hmem hpdf hfetch]
      apply ih
      obtain ⟨h1, h2, h3⟩ := h
      refine ⟨h1, h2, ?_⟩
      intro e he
      rcases List.mem_append.mp he with he | he
      · exact h3 e he
      · simp only [List.mem_singleton] at he
        subst he
        intro he2
        have he3 : current = u := he2
        apply hmem
        right
        rw [he3]
        exact h1
  | case5 x current depth rest hq hv hmem hpdf html hfetch s1 ih =>
      rw [crawlLoop_page env x current depth rest html hq hv hmem hpdf hfetch]
      apply ih
      apply foldl_processChild_avoids
      obtain ⟨h1, h2, h3⟩ := h
      refine ⟨List.mem_append_left _ h1, ?_, ?_⟩
      · intro r hr
        rcases List.mem_append.mp hr with hr | hr
        · exact h2 r hr
        · simp only [List.mem_singleton] at hr
          subst hr
          intro he
          have he2 : current = u := he
          apply hmem
          right
          rw [he2]
          exact h1
      · intro e he
        rcases List.mem_append.mp he with he | he
        · exact h3 e he
        · simp only [List.mem_singleton] at he
          subst he
          intro he2
          have he3 : current = u := he2
          apply hmem
          right
          rw [he3]
          exact h1
  | case6 x current depth rest hq hv =>
      rw [crawlLoop_stop env x current depth rest hq hv]
      exact h

/-- Invariant behind claim C5: the discovered urls are duplicate free, and
every one of them has been marked visited. -/
def RecUrlsOk (s : CrawlState) : Prop :=
  (s.discovered.map DiscoveryRecord.url).Nodup ∧
    ∀ r ∈ s.discovered, r.url ∈ s.visited

lemma nodup_snoc {l : List Str} {a : Str} (h : l.Nodup) (ha : a ∉ l) :
    (l ++ [a]).Nodup := by
  refine List.Nodup.append h (List.nodup_singleton a) ?_
  intro x hx hxa
  simp only [List.mem_singleton] at hxa
  subst hxa
  exact ha hx

lemma recUrlsOk_add (s : CrawlState) (link : Str) (title desc : Str)
    (depth : Rat) (t : RecType) (h : RecUrlsOk s) (hlink : link ∉ s.visited) :
    RecUrlsOk { s with
      visited := s.visited ++ [link],
      discovered := s.discovered ++ [⟨link, title, desc, depth, t⟩] } := by
  obtain ⟨h1, h2⟩ := h
  constructor
  · simp only [List.map_append, List.map_cons, List.map_nil]
    apply nodup_snoc h1
    intro hm
    rw [List.mem_map] at hm
    obtain ⟨r, hr, hru⟩ := hm
    exact hlink (hru ▸ h2 r hr)
  · intro r hr
    rcases List.mem_append.mp hr with hr | hr
    · exact List.mem_append_left _ (h2 r hr)
    · simp only [List.mem_singleton] at hr
      subst hr
      exact List.mem_append_right _ (by simp)

lemma processChild_recUrlsOk (env : Env) (depth : Rat) (s : CrawlState)
    (link : Str) (h : RecUrlsOk s) :
    RecUrlsOk (processChild env depth s link) := by
  unfold processChild
  split
  · exact h
  · next hmem =>
      split
      · have hlink : link ∉ s.visited := fun hx => hmem (Or.inl hx)
        have := recUrlsOk_add s link (env.pdfTitle link) NO_DESC_PDF
          (depth + 1/2) RecType.PDF h hlink
        exact ⟨this.1, fun r hr => this.2 r hr⟩
      · exact ⟨h.1, h.2⟩

lemma foldl_processChild_recUrlsOk (env : Env) (depth : Rat)
    (links : List Str) (s : CrawlState) (h : RecUrlsOk s) :
    RecUrlsOk (links.foldl (processChild env depth) s) := by
  induction links generalizing s with
  | nil => exact h
  | cons l rest ih => exact ih _ (processChild_recUrlsOk env depth s l h)

lemma crawlLoop_recUrlsOk (env : Env) (s : CrawlState) (h : RecUrlsOk s) :
    RecUrlsOk (crawlLoop env s) := by
  induction s using crawlLoop.induct env with
  | case1 x hq =>
      rw [crawlLoop_nil env x hq]
      exact h
  | case2 x current depth rest hq hv hmem ih =>
      rw [crawlLoop_skip env x current depth rest hq hv hmem]
      exact ih ⟨h.1, h.2⟩
  | case3 x current depth rest hq hv hmem hpdf ih =>
      rw [crawlLoop_pdf env x current depth rest hq hv hmem hpdf]
      apply ih
      have hlink : current ∉ x.visited := fun hx => hmem (Or.inl hx)
      have := recUrlsOk_add x current (env.pdfTitle current) NO_DESC_PDF
        depth RecType.PDF h hlink
      exact ⟨this.1, fun r hr => this.2 r hr⟩
  | case4 x current depth rest hq hv hmem hpdf hfetch ih =>
      rw [crawlLoop_fail env x current depth rest hq hv hmem hpdf hfetch]
      apply ih
      obtain ⟨h1, h2⟩ := h
      exact ⟨h1, fun r hr => List.mem_append_left _ (h2 r hr)⟩
  | case5 x current depth rest hq hv hmem hpdf html hfetch s1 ih =>
      rw [crawlLoop_page env x current depth rest html hq hv hmem hpdf hfetch]
      apply ih
      apply foldl_processChild_recUrlsOk
      have hlink : current ∉ x.visited := fun hx => hmem (Or.inl hx)
      have := recUrlsOk_add x current (extract_title_from_html html)
        (extract_description_from_html html) depth RecType.Page h hlink
      exact ⟨this.1, fun r hr => this.2 r hr⟩
  | case6 x current depth rest hq hv =>
      rw [crawlLoop_stop env x current depth rest hq hv]
      exact h

/-- What holds of every url extract_links returns: it is a canonical url,
its parsed netloc is exactly the target domain, its parsed path starts with
the target path prefix, and the excluded-extension test on its lower-cased
parsed path is false. -/
def LinkOk (u : Str) : Prop :=
  (∃ x, u = canonicalize_url x) ∧
    (urlparse u).netloc = TARGET_DOMAIN ∧
    TARGET_PATH_PREF.isPrefixOf (urlparse u).path = true ∧
    EXCLUDE_EXTENSIONS.any
      (fun ext => ext.isSuffixOf (lowerStr (urlparse u).path)) = false

lemma mem_addFound {found : List Str} {a v : Str}
    (h : v ∈ addFound found a) : v ∈ found ∨ v = a := by
  unfold addFound at h
  split at h
  · exact Or.inl h
  · rcases List.mem_append.mp h with h | h
    · exact Or.inl h
    · simp only [List.mem_singleton] at h
      exact Or.inr h

lemma extract_links_mem (uj : Str → Str → Str) (cu : Str) (hrefs : List Str) :
    ∀ v ∈ extract_links uj cu hrefs, LinkOk v := by
  unfold extract_links
  have haux : ∀ (hs : List Str) (acc : List Str),
      (∀ v ∈ acc, LinkOk v) →
      ∀ v ∈ hs.foldl (fun found href =>
        let abs_url := canonicalize_url (uj cu (pyStrip href))
        let parsed := urlparse abs_url
        if parsed.netloc ≠ TARGET_DOMAIN then found
        else if ¬ (TARGET_PATH_PREF.isPrefixOf parsed.path) then found
        else if EXCLUDE_EXTENSIONS.any
            (fun ext => ext.isSuffixOf (lowerStr parsed.path)) then found
        else addFound found abs_url) acc, LinkOk v := by
    intro hs
    induction hs with
    | nil =>
        intro acc hacc v hv
        exact hacc v hv
    | cons href rest ih =>
        intro acc hacc v hv
        rw [List.foldl_cons] at hv
        refine ih _ ?_ v hv
        intro w hw
        simp only [] at hw
        split at hw
        · exact hacc w hw
        · next hc1 =>
            split at hw
            · exact hacc w hw
            · next hc2 =>
                split at hw
                · exact hacc w hw
                · next hc3 =>
                    rcases mem_addFound hw with hw | rfl
                    · exact hacc w hw
                    · refine ⟨⟨uj cu (pyStrip href), rfl⟩, not_not.mp hc1, ?_, ?_⟩
                      · cases hb : TARGET_PATH_PREF.isPrefixOf
                          (urlparse (canonicalize_url (uj cu (pyStrip href)))).path
                        · exact absurd (by rw [hb]; simp) hc2
                        · rfl
                      · cases hb : EXCLUDE_EXTENSIONS.any
                          (fun ext => ext.isSuffixOf (lowerStr
                            (urlparse (canonicalize_url (uj cu (pyStrip href)))).path))
                        · rfl
                        · exact absurd hb hc3
  intro v hv
  exact haux hrefs [] (by intro w hw; simp at hw) v hv

/-- Invariant behind claim C9: every url in the visited set, the frontier
queue and the discovered records is the image of some url under
canonicalize_url. -/
def CanonState (s : CrawlState) : Prop :=
  (∀ u ∈ s.visited, ∃ x, u = canonicalize_url x) ∧
    (∀ q ∈ s.queue, ∃ x, (q : Str × Rat).1 = canonicalize_url x) ∧
    (∀ r ∈ s.discovered, ∃ x, (r : DiscoveryRecord).url = canonicalize_url x)

lemma processChild_canonState (env : Env) (depth : Rat) (s : CrawlState)
    (link : Str) (hlink : ∃ x, link = canonicalize_url x)
    (h : CanonState s) : CanonState (processChild env depth s link) := by
  obtain ⟨h1, h2, h3⟩ := h
  unfold processChild
  split
  · exact ⟨h1, h2, h3⟩
  · split
    · refine ⟨?_, h2, ?_⟩
      · intro u hu
        rcases List.mem_append.mp hu with hu | hu
        · exact h1 u hu
        · simp only [List.mem_singleton] at hu
          subst hu
          exact hlink
      · intro r hr
        rcases List.mem_append.mp hr with hr | hr
        · exact h3 r hr
        · simp only [List.mem_singleton] at hr
          subst hr
          exact hlink
    · refine ⟨h1, ?_, h3⟩
      intro q hq
      rcases List.mem_append.mp hq with hq | hq
      · exact h2 q hq
      · simp only [List.mem_singleton] at hq
        subst hq
        exact hlink

lemma foldl_processChild_canonState (env : Env) (depth : Rat)
    (links : List Str) (hlinks : ∀ l ∈ links, ∃ x, l = canonicalize_url x)
    (s : CrawlState) (h : CanonState s) :
    CanonState (links.foldl (processChild env depth) s) := by
  induction links generalizing s with
  | nil => exact h
  | cons l rest ih =>
      exact ih (fun w hw => hlinks w (List.mem_cons_of_mem _ hw)) _
        (processChild_canonState env depth s l (hlinks l (by simp)) h)

lemma crawlLoop_canonState (env : Env) (s : CrawlState) (h : CanonState s) :
    CanonState (crawlLoop env s) := by
  induction s using crawlLoop.induct env with
  | case1 x hq =>
      rw [crawlLoop_nil env x hq]
      exact h
  | case2 x current depth rest hq hv hmem ih =>
      rw [crawlLoop_skip env x current depth rest hq hv hmem]
      refine ih ⟨h.1, ?_, h.2.2⟩
      intro q hqm
      exact h.2.1 q (by rw [hq]; exact List.mem_cons_of_mem _ hqm)
  | case3 x current depth rest hq hv hmem hpdf ih =>
      rw [crawlLoop_pdf env x current depth rest hq hv hmem hpdf]
      apply ih
      obtain ⟨h1, h2, h3⟩ := h
      have hcur : ∃ y, current = canonicalize_url y :=
        h2 (current, depth) (by rw [hq]; simp)
      refine ⟨?_, ?_, ?_⟩
      · intro u hu
        rcases List.mem_append.mp hu with hu | hu
        · exact h1 u hu
        · simp only [List.mem_singleton] at hu
          subst hu
          exact hcur
      · intro q hqm
        exact h2 q (by rw [hq]; exact List.mem_cons_of_mem _ hqm)
      · intro r hr
        rcases List.mem_append.mp hr with hr | hr
        · exact h3 r hr
        · simp only [List.mem_singleton] at hr
          subst hr
          exact hcur
  | case4 x current depth rest hq hv hmem hpdf hfetch ih =>
      rw [crawlLoop_fail env x current depth rest hq hv hmem hpdf hfetch]
      apply ih
      obtain ⟨h1, h2, h3⟩ := h
      have hcur : ∃ y, current = canonicalize_url y :=
        h2 (current, depth) (by rw [hq]; simp)
      refine ⟨?_, ?_, h3⟩
      · intro u hu
        rcases List.mem_append.mp hu with hu | hu
        · exact h1 u hu
        · simp only [List.mem_singleton] at hu
          subst hu
          exact hcur
      · intro q hqm
        exact h2 q (by rw [hq]; exact List.mem_cons_of_mem _ hqm)
  | case5 x current depth rest hq hv hmem hpdf html hfetch s1 ih =>
      rw [crawlLoop_page env x current depth rest html hq hv hmem hpdf hfetch]
      apply ih
      apply foldl_processChild_canonState
      · intro l hl
        exact (extract_links_mem env.urljoin current html.hrefs l hl).1
      · obtain ⟨h1, h2, h3⟩ := h
        have hcur : ∃ y, current = canonicalize_url y :=
          h2 (current, depth) (by rw [hq]; simp)
        refine ⟨?_, ?_, ?_⟩
        · intro u hu
          rcases List.mem_append.mp hu with hu | hu
          · exact h1 u hu
          · simp only [List.mem_singleton] at hu
            subst hu
            exact hcur
        · intro q hqm
          exact h2 q (by rw [hq]; exact List.mem_cons_of_mem _ hqm)
        · intro r hr
          rcases List.mem_append.mp hr with hr | hr
          · exact h3 r hr
          · simp only [List.mem_singleton] at hr
            subst hr
            exact hcur
  | case6 x current depth rest hq hv =>
      rw [crawlLoop_stop env x current depth rest hq hv]
      exact h

lemma crawl_canonState (env : Env) (known seeds : List Str) :
    CanonState (crawl env known seeds) := by
  unfold crawl
  apply crawlLoop_canonState
  refine ⟨by intro u hu; simp at hu, ?_, by intro r hr; simp at hr⟩
  intro q hqm
  rw [List.mem_map] at hqm
  obtain ⟨u, hu, rfl⟩ := hqm
  exact ⟨u, rfl⟩

lemma getLast?_lowerStr (l : Str) :
    (lowerStr l).getLast? = l.getLast?.map Char.toLower := by
  unfold lowerStr
  induction l with
  | nil => rfl
  | cons a t ih =>
      cases t with
      | nil => rfl
      | cons b t2 =>
          rw [List.map_cons, List.map_cons, List.getLast?_cons_cons,
            List.getLast?_cons_cons]
          exact ih

/-- A canonical url never ends in .pdf after lower-casing: it ends in a
slash. -/
lemma canon_not_pdfLink (x : Str) :
    PDF_EXT.isSuffixOf (lowerStr (canonicalize_url x)) = false := by
  cases h : PDF_EXT.isSuffixOf (lowerStr (canonicalize_url x)) with
  | false => rfl
  | true =>
      have h1 := isSuffixOf_getLast? h (by simp [PDF_EXT, str])
      rw [getLast?_lowerStr, canonicalize_ends_slash x] at h1
      exact absurd h1 (by decide)

/-- The parsed path of a canonical url never ends in .pdf after
lower-casing: it is empty or ends in a slash. -/
lemma canon_not_pdfPath (x : Str) :
    PDF_EXT.isSuffixOf (lowerStr (urlparse (canonicalize_url x)).path)
      = false := by
  cases h : PDF_EXT.isSuffixOf (lowerStr (urlparse (canonicalize_url x)).path) with
  | false => rfl
  | true =>
      rcases canonical_parsed_path x with hp | hp
      · rw [hp] at h
        exact absurd h (by decide)
      · have h1 := isSuffixOf_getLast? h (by simp [PDF_EXT, str])
        rw [getLast?_lowerStr, hp] at h1
        exact absurd h1 (by decide)

/-- The invariant behind claim C6: no discovered record carries the url u. -/
def NoRecFor (u : Str) (s : CrawlState) : Prop :=
  ∀ r ∈ s.discovered, r.url ≠ u

lemma processChild_noRec {u : Str} (env : Env) (depth : Rat) (s : CrawlState)
    (link : Str) (hu : PDF_EXT.isSuffixOf (lowerStr u) = false)
    (h : NoRecFor u s) : NoRecFor u (processChild env depth s link) := by
  unfold processChild
  split
  · exact h
  · split
    · next hpdf =>
        intro r hr
        rcases List.mem_append.mp hr with hr | hr
        · exact h r hr
        · simp only [List.mem_singleton] at hr
          subst hr
          intro he
          have he2 : link = u := he
          rw [he2] at hpdf
          rw [hpdf] at hu
          exact absurd hu (by decide)
    · exact h

lemma foldl_processChild_noRec {u : Str} (env : Env) (depth : Rat)
    (links : List Str) (hu : PDF_EXT.isSuffixOf (lowerStr u) = false)
    (s : CrawlState) (h : NoRecFor u s) :
    NoRecFor u (links.foldl (processChild env depth) s) := by
  induction links generalizing s with
  | nil => exact h
  | cons l rest ih =>
      exact ih _ (processChild_noRec env depth s l hu h)

lemma crawlLoop_noRec {u : Str} (env : Env) (s : CrawlState)
    (hfetch : env.fetch u = none)
    (hpath : PDF_EXT.isSuffixOf (lowerStr (urlparse u).path) = false)
    (hlink : PDF_EXT.isSuffixOf (lowerStr u) = false)
    (h : NoRecFor u s) : NoRecFor u (crawlLoop env s) := by
  induction s using crawlLoop.induct env with
  | case1 x hq =>
      rw [crawlLoop_nil env x hq]
      exact h
  | case2 x current depth rest hq hv hmem ih =>
      rw [crawlLoop_skip env x current depth rest hq hv hmem]
      exact ih h
  | case3 x current depth rest hq hv hmem hpdf ih =>
      rw [crawlLoop_pdf env x current depth rest hq hv hmem hpdf]
      apply ih
      intro r hr
      rcases List.mem_append.mp hr with hr | hr
      · exact h r hr
      · simp only [List.mem_singleton] at hr
        subst hr
        intro he
        have he2 : current = u := he
        rw [he2] at hpdf
        rw [hpdf] at hpath
        exact absurd hpath (by decide)
  | case4 x current depth rest hq hv hmem hpdf hfetch2 ih =>
      rw [crawlLoop_fail env x current depth rest hq hv hmem hpdf hfetch2]
      exact ih h
  | case5 x current depth rest hq hv hmem hpdf html hfetch2 s1 ih =>
      rw [crawlLoop_page env x current depth rest html hq hv hmem hpdf hfetch2]
      apply ih
      apply foldl_processChild_noRec env depth _ hlink
      intro r hr
      rcases List.mem_append.mp hr with hr | hr
      · exact h r hr
      · simp only [List.mem_singleton] at hr
        subst hr
        intro he
        have he2 : current = u := he
        rw [he2] at hfetch2
        rw [hfetch] at hfetch2
        exact absurd hfetch2 (by simp)
  | case6 x current depth rest hq hv =>
      rw [crawlLoop_stop env x current depth rest hq hv]
      exact h

lemma crawl_noRec (env : Env) (known seeds : List Str) (u : Str)
    (hfetch : env.fetch u = none)
    (hpath : PDF_EXT.isSuffixOf (lowerStr (urlparse u).path) = false)
    (hlink : PDF_EXT.isSuffixOf (lowerStr u) = false) :
    NoRecFor u (crawl env known seeds) := by
  unfold crawl
  apply crawlLoop_noRec env _ hfetch hpath hlink
  intro r hr
  simp at hr

/-- The loop only appends to the discovered list and the event trace. -/
def ExtendsRec (s s2 : CrawlState) : Prop :=
  (∃ t, s2.discovered = s.discovered ++ t) ∧
    (∃ t, s2.events = s.events ++ t)

lemma extendsRec_refl (s : CrawlState) : ExtendsRec s s :=
  ⟨⟨[], by simp⟩, ⟨[], by simp⟩⟩

lemma extendsRec_trans {a b c : CrawlState} (h1 : ExtendsRec a b)
    (h2 : ExtendsRec b c) : ExtendsRec a c := by
  obtain ⟨⟨t1, ht1⟩, ⟨e1, he1⟩⟩ := h1
  obtain ⟨⟨t2, ht2⟩, ⟨e2, he2⟩⟩ := h2
  exact ⟨⟨t1 ++ t2, by rw [ht2, ht1, List.append_assoc]⟩,
    ⟨e1 ++ e2, by rw [he2, he1, List.append_assoc]⟩⟩

lemma processChild_extendsRec (env : Env) (depth : Rat) (s : CrawlState)
    (link : Str) : ExtendsRec s (processChild env depth s link) := by
  unfold processChild
  split
  · exact extendsRec_refl s
  · split
    · exact ⟨⟨_, rfl⟩, ⟨_, rfl⟩⟩
    · exact extendsRec_refl s

lemma foldl_processChild_extendsRec (env : Env) (depth : Rat)
    (links : List Str) (s : CrawlState) :
    ExtendsRec s (links.foldl (processChild env depth) s) := by
  induction links generalizing s with
  | nil => exact extendsRec_refl s
  | cons l rest ih =>
      exact extendsRec_trans (processChild_extendsRec env depth s l)
        (ih (processChild env depth s l))

lemma crawlLoop_extendsRec (env : Env) (s : CrawlState) :
    ExtendsRec s (crawlLoop env s) := by
  induction s using crawlLoop.induct env with
  | case1 x hq =>
      rw [crawlLoop_nil env x hq]
      exact extendsRec_refl x
  | case2 x current depth rest hq hv hmem ih =>
      rw [crawlLoop_skip env x current depth rest hq hv hmem]
      exact extendsRec_trans (extendsRec_refl _) ih
  | case3 x current depth rest hq hv hmem hpdf ih =>
      rw [crawlLoop_pdf env x current depth rest hq hv hmem hpdf]
      exact extendsRec_trans ⟨⟨_, rfl⟩, ⟨_, rfl⟩⟩ ih
  | case4 x current depth rest hq hv hmem hpdf hfetch ih =>
      rw [crawlLoop_fail env x current depth rest hq hv hmem hpdf hfetch]
      exact extendsRec_trans ⟨⟨[], by simp⟩, ⟨_, rfl⟩⟩ ih
  | case5 x current depth rest hq hv hmem hpdf html hfetch s1 ih =>
      rw [crawlLoop_page env x current depth rest html hq hv hmem hpdf hfetch]
      refine extendsRec_trans ?_ ih
      refine extendsRec_trans ?_ (foldl_processChild_extendsRec env depth _ _)
      exact ⟨⟨_, rfl⟩, ⟨_, rfl⟩⟩
  | case6 x current depth rest hq hv =>
      rw [crawlLoop_stop env x current depth rest hq hv]
      exact extendsRec_refl x

lemma head?_append_some {α : Type} {l : List α} {a : α} (t : List α)
    (h : l.head? = some a) : (l ++ t).head? = some a := by
  cases l with
  | nil => simp at h
  | cons b l2 => simpa using h

lemma head_after_loop (env : Env) (d : Rat) (links : List Str)
    (s : CrawlState) (r : DiscoveryRecord) (ev : FetchEvent)
    (hd : s.discovered.head? = some r) (he : s.events.head? = some ev) :
    (crawlLoop env (links.foldl (processChild env d) s)).discovered.head?
      = some r ∧
    (crawlLoop env (links.foldl (processChild env d) s)).events.head?
      = some ev := by
  have h1 := extendsRec_trans (foldl_processChild_extendsRec env d links s)
    (crawlLoop_extendsRec env (links.foldl (processChild env d) s))
  obtain ⟨⟨t1, ht1⟩, ⟨e1, he1⟩⟩ := h1
  rw [ht1, he1]
  exact ⟨head?_append_some t1 hd, head?_append_some e1 he⟩

lemma crawl_avoids (env : Env) (known seeds : List Str) (u : Str)
    (hu : u ∈ known) : AvoidsU u (crawl env known seeds) := by
  unfold crawl
  apply crawlLoop_avoids
  refine ⟨hu, ?_, ?_⟩
  · intro r hr
    simp at hr
  · intro e he
    simp at he

lemma crawl_recUrlsOk (env : Env) (known seeds : List Str) :
    RecUrlsOk (crawl env known seeds) := by
  unfold crawl
  apply crawlLoop_recUrlsOk
  refine ⟨by simp, ?_⟩
  intro r hr
  simp at hr

/-- A fixed html page used to exercise the crawl theorems on concrete
inputs. -/
def htmlW : Html := ⟨some (str "T"), none, none, []⟩

/-- An environment whose fetches all succeed with htmlW. -/
def envW : Env :=
  ⟨fun x => some htmlW, fun x => NO_PDF_TITLE, fun x h => h⟩

/-- An environment whose fetches all fail. -/
def envN : Env :=
  ⟨fun x => none, fun x => NO_PDF_TITLE, fun x h => h⟩

/-- Claim C1: for every base url and list of anchor hrefs, extract_links
never returns a url whose lower-cased parsed path ends with one of the
excluded extensions, and .pdf is not among the excluded extensions. -/
theorem claim_C1 :
    (∀ uj cu hrefs v, v ∈ extract_links uj cu hrefs →
      ∀ ext ∈ EXCLUDE_EXTENSIONS,
        ext.isSuffixOf (lowerStr (urlparse v).path) = false) ∧
    PDF_EXT ∉ EXCLUDE_EXTENSIONS := by
  constructor
  · intro uj cu hrefs v hv ext hext
    have h := (extract_links_mem uj cu hrefs v hv).2.2.2
    cases hb : ext.isSuffixOf (lowerStr (urlparse v).path) with
    | false => rfl
    | true =>
        have hany : EXCLUDE_EXTENSIONS.any
            (fun e => e.isSuffixOf (lowerStr (urlparse v).path)) = true :=
          List.any_eq_true.mpr ⟨ext, hext, hb⟩
        rw [hany] at h
        exact absurd h (by decide)
  · decide

/-- Claim C2: a child link that is neither visited nor known and whose
lower-cased url ends in .pdf is recorded immediately as a PDF leaf at the
parent depth plus one half, marked visited and known, its title fetched,
and the queue is left unchanged; any other fresh child link is enqueued at
the parent depth plus one, with everything else unchanged. -/
theorem claim_C2 (env : Env) (depth : Rat) (s : CrawlState) (link : Str) :
    (¬ (link ∈ s.visited ∨ link ∈ s.known) →
      PDF_EXT.isSuffixOf (lowerStr link) = true →
      processChild env depth s link =
        { s with visited := s.visited ++ [link],
                 known := s.known ++ [link],
                 events := s.events ++ [FetchEvent.fetchPdf link],
                 discovered := s.discovered ++
                   [⟨link, env.pdfTitle link, NO_DESC_PDF, depth + 1/2,
                     RecType.PDF⟩] }) ∧
    (¬ (link ∈ s.visited ∨ link ∈ s.known) →
      PDF_EXT.isSuffixOf (lowerStr link) = false →
      processChild env depth s link =
        { s with queue := s.queue ++ [(link, depth + 1)] }) := by
  constructor
  · intro hmem hpdf
    unfold processChild
    rw [if_neg hmem, if_pos hpdf]
  · intro hmem hpdf
    unfold processChild
    rw [if_neg hmem, if_neg (show ¬ PDF_EXT.isSuffixOf (lowerStr link) = true
      by rw [hpdf]; simp)]

/-- Claim C3 (amended): canonicalize_url is idempotent on every url whose
parse has a nonempty netloc or whose canonical path does not begin with a
double slash, and it collapses the index/query/fragment variants of the
example to the same canonical url, itself a fixed point.  Unconditional
idempotence fails: see the counterexample. -/
theorem claim_C3 :
    (∀ x, (urlparse x).netloc ≠ [] ∨
        (canonicalPath (urlparse x).path).take 2 ≠ ['/', '/'] →
      canonicalize_url (canonicalize_url x) = canonicalize_url x) ∧
    canonicalize_url (str "https://h/p/index.html?q=1#f") =
      canonicalize_url (str "https://h/p/") ∧
    canonicalize_url (str "https://h/p/") = str "https://h/p/" := by
  refine ⟨fun x h => canonicalize_idem_of x h, ?_, ?_⟩
  · decide
  · decide

/-- Claim C3 counterexample: canonicalize_url is not idempotent on the url
consisting of four slashes, which it maps to two slashes and then to one. -/
theorem claim_C3_counterexample :
    canonicalize_url (canonicalize_url (str "////")) ≠
      canonicalize_url (str "////") := by
  decide

/-- Claim C4: a url whose canonical form is in the known set at run start
is never recorded and never fetched (no html fetch and no pdf fetch is ever
issued for it) during the whole run. -/
theorem claim_C4 (env : Env) (known seeds : List Str) (u : Str)
    (hu : canonicalize_url u ∈ known) :
    (∀ r ∈ (crawl env known seeds).discovered,
      r.url ≠ canonicalize_url u) ∧
    (∀ e ∈ (crawl env known seeds).events,
      eventUrl e ≠ canonicalize_url u) := by
  have h := crawl_avoids env known seeds (canonicalize_url u) hu
  exact ⟨h.2.1, h.2.2⟩

theorem claim_C4_witness :
    (∀ r ∈ (crawl envW [canonicalize_url (str "a")] [str "a"]).discovered,
      r.url ≠ canonicalize_url (str "a")) ∧
    (∀ e ∈ (crawl envW [canonicalize_url (str "a")] [str "a"]).events,
      eventUrl e ≠ canonicalize_url (str "a")) :=
  claim_C4 envW [canonicalize_url (str "a")] [str "a"] (str "a")
    (List.mem_singleton.mpr rfl)

/-- Claim C5: in every run, the urls of the discovered records returned by
crawl are pairwise distinct. -/
theorem claim_C5 (env : Env) (known seeds : List Str) :
    ((crawl env known seeds).discovered.map DiscoveryRecord.url).Nodup :=
  (crawl_recUrlsOk env known seeds).1

/-- Claim C6: fetch_html turns a transport exception and every error status
(400-599, the raise_for_status range) into none instead of raising; when
the loop head's fetch fails the url is marked visited, nothing is recorded,
nothing is re-queued, and the loop goes on with the rest of the queue; and
a url whose fetch always fails (and which is not pdf-classified) never
appears in any discovered record of the run. -/
theorem claim_C6 :
    fetch_html none HttpResult.exn = none ∧
    (∀ status ctype body, 400 ≤ status → status < 600 →
      fetch_html none (HttpResult.ok status ctype body) = none) ∧
    (∀ env s current depth rest,
      s.queue = (current, depth) :: rest →
      s.visited.length < MAX_PAGES →
      ¬ (current ∈ s.visited ∨ current ∈ s.known) →
      ¬ PDF_EXT.isSuffixOf (lowerStr (urlparse current).path) = true →
      (env : Env).fetch current = none →
      crawlLoop env s = crawlLoop env
        { s with visited := s.visited ++ [current],
                 queue := rest,
                 events := s.events ++ [FetchEvent.fetchHtml current] }) ∧
    (∀ env known seeds u,
      (env : Env).fetch u = none →
      PDF_EXT.isSuffixOf (lowerStr (urlparse u).path) = false →
      PDF_EXT.isSuffixOf (lowerStr u) = false →
      ∀ r ∈ (crawl env known seeds).discovered, r.url ≠ u) := by
  refine ⟨rfl, ?_, ?_, ?_⟩
  · intro status ctype body h1 h2
    simp [fetch_html, h1, h2]
  · intro env s current depth rest hq hv hmem hpdf hfetch
    exact crawlLoop_fail env s current depth rest hq hv hmem hpdf hfetch
  · intro env known seeds u hfetch hpath hlink
    exact crawl_noRec env known seeds u hfetch hpath hlink

/-- Claim C7 (amended): for every nonempty record list, save in overwrite
mode replaces the whole file with the header row followed by one row per
record in order, independently of the old file content (so re-saving the
same list is byte-identical); but for the empty record list the function
returns before opening the file and the old content survives untouched,
refuting the every-record-list reading.  See the counterexample. -/
theorem claim_C7 :
    (∀ entries file_exists old_content, entries ≠ [] →
      save_new_sitemap entries file_exists old_content SaveMode.w =
        csvRow CSV_HEADER ++ (entries.map recRow).flatten) ∧
    (∀ file_exists old_content mode,
      save_new_sitemap ([] : List DiscoveryRecord) file_exists old_content
        mode = old_content) := by
  constructor
  · intro entries fe old hne
    simp [save_new_sitemap, hne]
  · intro fe old mode
    simp [save_new_sitemap]

/-- Claim C7 counterexample: saving the empty record list in overwrite mode
leaves the stale file content in place instead of truncating and rewriting
the header. -/
theorem claim_C7_counterexample :
    save_new_sitemap [] true (str "stale") SaveMode.w = str "stale" ∧
    save_new_sitemap [] true (str "stale") SaveMode.w ≠ csvRow CSV_HEADER := by
  constructor
  · decide
  · decide

/-- Claim C8 (amended): get_pdf_title is total (never raises): on download
or parse failure, on missing metadata and on a missing /Title key it
returns the sentinel, and when the /Title key is present it returns the
trimmed value, which for a blank title is the empty string rather than the
sentinel.  See the counterexample. -/
theorem claim_C8 :
    get_pdf_title PdfOutcome.failure = NO_PDF_TITLE ∧
    get_pdf_title (PdfOutcome.parsed none) = NO_PDF_TITLE ∧
    (∀ m, dictLookup (str "/Title") m = none →
      get_pdf_title (PdfOutcome.parsed (some m)) = NO_PDF_TITLE) ∧
    (∀ m v, dictLookup (str "/Title") m = some v →
      get_pdf_title (PdfOutcome.parsed (some m)) = pyStrip v) := by
  refine ⟨rfl, rfl, ?_, ?_⟩
  · intro m h
    have hred : get_pdf_title (PdfOutcome.parsed (some m)) =
        match dictLookup (str "/Title") m with
        | some v => pyStrip v
        | none => NO_PDF_TITLE := rfl
    rw [hred, h]
  · intro m v h
    have hred : get_pdf_title (PdfOutcome.parsed (some m)) =
        match dictLookup (str "/Title") m with
        | some v => pyStrip v
        | none => NO_PDF_TITLE := rfl
    rw [hred, h]

/-- Claim C8 counterexample: a PDF whose metadata /Title is a single blank
yields the empty string, not the sentinel No PDF Title. -/
theorem claim_C8_counterexample :
    get_pdf_title (PdfOutcome.parsed (some [(str "/Title", str " ")])) =
      ([] : Str) ∧
    ([] : Str) ≠ NO_PDF_TITLE := by
  constructor
  · decide
  · decide

/-- Claim C9 (amended): every url in the visited set, the queue and the
discovered records of a run is the image of some url under
canonicalize_url; every canonical url ends in a slash, its parsed path is
empty or ends in a slash, so neither the pdf-path check of the loop nor
the pdf-link check of the child loop can ever fire on it; and a canonical
url whose parse has a nonempty netloc (in particular every url returned by
extract_links, whose netloc is the target domain) is a fixed point of
canonicalize_url.  The unconditional fixed-point-with-slash-ended-path
reading fails: see the counterexample. -/
theorem claim_C9 :
    (∀ env known seeds, CanonState (crawl env known seeds)) ∧
    (∀ x, (canonicalize_url x).getLast? = some '/') ∧
    (∀ x, (urlparse (canonicalize_url x)).path = [] ∨
      (urlparse (canonicalize_url x)).path.getLast? = some '/') ∧
    (∀ x, PDF_EXT.isSuffixOf (lowerStr (canonicalize_url x)) = false) ∧
    (∀ x, PDF_EXT.isSuffixOf (lowerStr (urlparse (canonicalize_url x)).path)
      = false) ∧
    (∀ x, (urlparse (canonicalize_url x)).netloc ≠ [] →
      canonicalize_url (canonicalize_url x) = canonicalize_url x) :=
  ⟨crawl_canonState, canonicalize_ends_slash, canonical_parsed_path,
    canon_not_pdfLink, canon_not_pdfPath, canon_fix_of_netloc⟩

/-- Claim C9 counterexample: with the seed https:////, the canonical url
https:// enters the visited set, yet it is not a fixed point of
canonicalize_url and its parsed path is empty, hence does not end in a
slash. -/
theorem claim_C9_counterexample :
    (crawl envN [] [str "https:////"]).visited = [str "https://"] ∧
    canonicalize_url (str "https://") ≠ str "https://" ∧
    (urlparse (str "https://")).path = [] := by
  have h1 : crawl envN [] [str "https:////"] =
      crawlLoop envN
        { visited := [], known := [], discovered := [],
          queue := [(str "https://", 1)], events := [] } := by
    unfold crawl
    exact congrArg (crawlLoop envN) (by decide)
  have h2 := crawlLoop_fail envN
    { visited := [], known := [], discovered := [],
      queue := [(str "https://", 1)], events := [] }
    (str "https://") 1 [] rfl (by decide) (by decide) (by decide) rfl
  have h5 := crawlLoop_nil envN
    { visited := [str "https://"], known := [], discovered := [],
      queue := [], events := [FetchEvent.fetchHtml (str "https://")] } rfl
  have h4 : crawl envN [] [str "https:////"] =
      { visited := [str "https://"], known := [], discovered := [],
        queue := [], events := [FetchEvent.fetchHtml (str "https://")] } :=
    calc crawl envN [] [str "https:////"]
        = _ := h1
      _ = _ := h2
      _ = _ := h5
  refine ⟨?_, by decide, by decide⟩
  rw [h4]

/-- Claim C10: a start url is canonicalized and fetched with no scope
filtering at all: whatever its host or path, when its canonical form is not
known at run start and its fetch succeeds, the very first discovered record
of the run is a Page record for the canonical seed at depth 1, and the very
first transport call of the run is the html fetch of the canonical seed. -/
theorem claim_C10 (env : Env) (known : List Str) (u : Str) (rest : List Str)
    (html : Html) (hk : canonicalize_url u ∉ known)
    (hfetch : env.fetch (canonicalize_url u) = some html) :
    (crawl env known (u :: rest)).discovered.head? =
      some ⟨canonicalize_url u, extract_title_from_html html,
        extract_description_from_html html, 1, RecType.Page⟩ ∧
    (crawl env known (u :: rest)).events.head? =
      some (FetchEvent.fetchHtml (canonicalize_url u)) := by
  unfold crawl
  simp only [List.map_cons]
  rw [crawlLoop_page env
    { visited := [], known := known, discovered := [],
      queue := (canonicalize_url u, 1) ::
        rest.map (fun v => (canonicalize_url v, 1)),
      events := [] }
    (canonicalize_url u) 1 (rest.map (fun v => (canonicalize_url v, 1)))
    html rfl (show ([] : List Str).length < MAX_PAGES by decide)
    (by rintro (h | h)
        exacts [absurd h (List.not_mem_nil _), hk h])
    (by simp [canon_not_pdfPath u]) hfetch]
  exact head_after_loop env 1 _ _ _ _ (by rfl) (by rfl)

theorem claim_C10_witness :
    (crawl envW [] [str "https://example.com/x"]).discovered.head? =
      some ⟨canonicalize_url (str "https://example.com/x"),
        extract_title_from_html htmlW, extract_description_from_html htmlW,
        1, RecType.Page⟩ ∧
    (crawl envW [] [str "https://example.com/x"]).events.head? =
      some (FetchEvent.fetchHtml
        (canonicalize_url (str "https://example.com/x"))) :=
  claim_C10 envW [] (str "https://example.com/x") [] htmlW
    (List.not_mem_nil _) rfl
